import Mathlib

/-!
# Verification of the Huffman coding implementation (src/huffman.c)

This file is a shallow embedding of the C program `src/huffman.c` together
with proofs about the claims of the specification.

Modelling conventions:
* C `char` / `unsigned char` symbols are modelled as `Nat` byte values
  (`0 ≤ c < 256`); a valid C string never contains the byte 0, which is
  captured by the predicate `validMsg`.
* The `Node` struct is the inductive `HNode`.  A node allocated by
  `create_node` carries a character and a frequency; `create_parent_node`
  stores the sum of the children's frequencies and the character `'\0'`
  (here `0`).  The diagnostic `code` field cached on tree nodes is used only
  by `print_node` and is not modelled.
* `qsort` with `node_compare` orders node pointers by frequency.  It is
  modelled by a stable insertion sort (`sort_nodes`); the merge loop of
  `generate_tree` places the freshly created parent in slot 0 (and the hole
  in slot 1, which sorts to the end and is dropped), so a new parent sorts
  before nodes of equal frequency.  This deterministic tie-break reproduces
  the reference bit-string checked by the assertions in `main`.
* Encoded messages are lists of the characters `'0'`/`'1'`, exactly as the
  C program stores them in a heap string.  The decoder compares each input
  character against `'0'` and otherwise goes right, as the C code does.
* Fallible code is modelled with `Option`.  `huffman_decode` returns `NULL`
  when the cursor does not end at the root; in the model this is `none`.
  The two places where the C program has undefined behaviour (stepping from
  a leaf dereferences a null child; an empty alphabet underflows
  `2 * length - 1` in `size_t`, see `generate_tree_max_nodes`) are modelled
  as `none` as well, and no claim's proof depends on the value chosen there.
* The C final check `current_node != root` compares pointers.  The model
  compares nodes structurally; this is faithful because the cursor is always
  the root itself or a proper subtree of it, and a proper subtree is never
  structurally equal to the whole tree (it has strictly smaller size).
-/

namespace HuffmanC

/-- The `Node` struct of the C program, restricted to the shape the program
actually builds: a leaf created by `create_node(c, freq)`, or an internal
node created by `create_parent_node` with exactly two children and the
stored frequency.  (`create_parent_node` stores `'\0'` as the character of
an internal node, which is reflected by `HNode.sym`.) -/
inductive HNode where
  | leaf (c : Nat) (freq : Nat)
  | internal (left right : HNode) (freq : Nat)
deriving DecidableEq, Repr

namespace HNode

/-- The stored `freq` field of a node. -/
def freq : HNode → Nat
  | leaf _ f => f
  | internal _ _ f => f

/-- The stored `c` field of a node (`create_parent_node` stores `'\0'`,
i.e. byte 0, in internal nodes). -/
def sym : HNode → Nat
  | leaf c _ => c
  | internal _ _ _ => 0

/-- The C test `node->left == NULL && node->right == NULL`. -/
def isLeaf : HNode → Bool
  | leaf _ _ => true
  | internal _ _ _ => false

/-- The list of `(character, frequency)` pairs of the leaves, left to right. -/
def leafData : HNode → List (Nat × Nat)
  | leaf c f => [(c, f)]
  | internal l r _ => leafData l ++ leafData r

/-- The characters stored at the leaves, left to right. -/
def syms (t : HNode) : List Nat := t.leafData.map Prod.fst

/-- Locate the leftmost leaf holding character `c`: returns the root-to-leaf
path (as `'0'`/`'1'` characters) and the frequency stored at that leaf. -/
def lookupLeaf : HNode → Nat → Option (List Char × Nat)
  | leaf c' f, c => if c' = c then some ([], f) else none
  | internal l r _, c =>
    match lookupLeaf l c with
    | some (p, f) => some ('0' :: p, f)
    | none =>
      match lookupLeaf r c with
      | some (p, f) => some ('1' :: p, f)
      | none => none

/-- Follow a path of `'0'`/`'1'` characters from a node: `'0'` goes left,
anything else goes right (as in `huffman_decode`); running out of tree
returns `none`. -/
def walk : HNode → List Char → Option HNode
  | t, [] => some t
  | leaf _ _, _ :: _ => none
  | internal l r _, b :: bs => walk (if b = '0' then l else r) bs

/-- Number of nodes of the tree.  Used to justify that the structural
equality test of the model agrees with the pointer comparison
`current_node != root` of the C code: a proper subtree has strictly fewer
nodes than the whole tree, so it can never be structurally equal to it. -/
def size : HNode → Nat
  | leaf _ _ => 1
  | internal l r _ => size l + size r + 1

end HNode

/-- `create_parent_node(left, right)`: an internal node whose frequency is
the sum of the children's frequencies. -/
def create_parent_node (left right : HNode) : HNode :=
  .internal left right (left.freq + right.freq)

/-- The `MessageChar` struct: a distinct character of the message, its
frequency, and (after `generate_huffman`) its code; the `code` pointer
starts out `NULL`, modelled by `Option`. -/
structure MessageChar where
  c : Nat
  freq : Nat
  code : Option (List Char)
deriving DecidableEq, Repr

/-- `count_frequencies`: the frequency of byte `b` in the message, i.e. the
number of occurrences of `b` (the C array cell `frequencies[b]`). -/
def count_frequencies (message : List Nat) (b : Nat) : Nat :=
  message.count b

/-- `create_message`: scan the 256 frequency cells in increasing byte order
and keep the characters with positive frequency, with a `NULL` code. -/
def create_message (message : List Nat) : List MessageChar :=
  ((List.range 256).filter (fun b => 0 < count_frequencies message b)).map
    (fun b => ⟨b, count_frequencies message b, none⟩)

/-- Insert a node into a frequency-sorted list, after all nodes of smaller
or equal frequency (the stable position). -/
def insertNode (n : HNode) : List HNode → List HNode
  | [] => [n]
  | m :: ms => if n.freq < m.freq then n :: m :: ms else m :: insertNode n ms

/-- `sort_nodes` (qsort with `node_compare`): stable sort by frequency. -/
def sort_nodes (l : List HNode) : List HNode :=
  l.foldl (fun acc n => insertNode n acc) []

/-- The merge loop of `generate_tree`: while more than one node remains,
take the two nodes of smallest frequency (slots 0 and 1 of the sorted
array), replace them by their parent (slot 0, with the hole in slot 1
sorting to the end and being dropped), and re-sort.  The fuel argument is
an upper bound on the number of merges; `generate_tree` passes enough. -/
def huffman_loop : Nat → List HNode → Option HNode
  | _, [] => none
  | _, [t] => some t
  | 0, _ :: _ :: _ => none
  | fuel + 1, t1 :: t2 :: rest =>
    huffman_loop fuel (sort_nodes (create_parent_node t1 t2 :: rest))

/-- The `size_t` expression `2 * message_info->length - 1` computed by
`generate_tree` before allocating the node array (64-bit modular
arithmetic; for `length = 0` it underflows to `2^64 - 1`). -/
def generate_tree_max_nodes (length : Nat) : Nat :=
  (2 * length + (2 ^ 64 - 1)) % 2 ^ 64

/-- `generate_tree`: create one leaf per `MessageChar` (in table order),
sort by frequency, and run the merge loop.  For an empty table the C
program has no tree to return (and in fact already has undefined behaviour
computing `generate_tree_max_nodes 0`); the model returns `none`. -/
def generate_tree (message_info : List MessageChar) : Option HNode :=
  huffman_loop message_info.length
    (sort_nodes (message_info.map (fun mc => HNode.leaf mc.c mc.freq)))

/-- Store `code` into the first table entry whose character is `c`
(the search loop with `break` inside `_generate_huffman`). -/
def set_code (c : Nat) (code : List Char) : List MessageChar → List MessageChar
  | [] => []
  | mc :: mcs =>
    if mc.c = c then { mc with code := some code } :: mcs
    else mc :: set_code c code mcs

/-- `_generate_huffman`: depth-first traversal accumulating the path in
`code_buffer`; at each leaf the accumulated path is stored into the table
entry of the leaf's character (appending `'0'` when entering a left child
and `'1'` when entering a right child).  The copy of the path cached on the
tree node itself is diagnostic only and is not modelled. -/
def generate_huffman_aux (message_info : List MessageChar) :
    HNode → List Char → List MessageChar
  | .leaf c _, code_buffer => set_code c code_buffer message_info
  | .internal l r _, code_buffer =>
    generate_huffman_aux (generate_huffman_aux message_info l (code_buffer ++ ['0']))
      r (code_buffer ++ ['1'])

/-- `generate_huffman`: generate all codes starting from the root with an
empty path. -/
def generate_huffman (message_info : List MessageChar) (root : HNode) :
    List MessageChar :=
  generate_huffman_aux message_info root []

/-- The code the encoder appends for character `c`: the code of the first
table entry matching `c`, and nothing when no entry matches (the C inner
loop then simply never fires and the character is skipped).  A matching
entry whose code is still `NULL` would be dereferenced by the C program;
this cannot happen for tables produced by `generate_huffman` on the
message's own tree. -/
def code_of (message_info : List MessageChar) (c : Nat) : List Char :=
  match message_info.find? (fun mc => mc.c == c) with
  | some mc => mc.code.getD []
  | none => []

/-- `huffman_encode`: concatenate the code of every message character in
order (the C function appends character by character into a growing heap
buffer; the buffer arithmetic itself is modelled by
`huffman_encode_state`). -/
def huffman_encode (message : List Nat) (message_info : List MessageChar) :
    List Char :=
  (message.map (code_of message_info)).flatten

/-- The `(current_idx, capacity)` pair of `huffman_encode` after all code
characters have been appended: the capacity starts at `strlen(message)+1`
and doubles whenever an append finds `current_idx >= capacity`.  The final
`'\0'` is then written at index `current_idx` of a buffer of `capacity`
bytes. -/
def huffman_encode_state (message : List Nat) (message_info : List MessageChar) :
    Nat × Nat :=
  (huffman_encode message message_info).foldl
    (fun st _ =>
      let cap := if st.2 ≤ st.1 then 2 * st.2 else st.2
      (st.1 + 1, cap))
    (0, message.length + 1)

/-- The loop of `huffman_decode`: follow `'0'` to the left child and any
other character to the right child; whenever the reached child is a leaf,
emit its character (`acc` collects the output in reverse) and reset the
cursor to the root.  When the input ends, the decoded string is returned
only if the cursor is back at the root, otherwise the output is freed and
`NULL` is returned.  Stepping from a leaf makes the C program dereference a
null child (undefined behaviour); the model returns `none` there. -/
def decode_loop (root : HNode) : List Char → HNode → List Nat → Option (List Nat)
  | [], cur, acc => if cur = root then some acc.reverse else none
  | b :: bs, cur, acc =>
    match cur with
    | .leaf _ _ => none
    | .internal l r _ =>
      let nxt := if b = '0' then l else r
      if nxt.isLeaf then decode_loop root bs root (nxt.sym :: acc)
      else decode_loop root bs nxt acc

/-- `huffman_decode`: run the decode loop from the root with empty output. -/
def huffman_decode (encoded_message : List Char) (root : HNode) :
    Option (List Nat) :=
  decode_loop root encoded_message root []

/-- The final cursor of the decode loop (the value of `current_node` when
the input is exhausted), `none` when the loop dereferences a null child. -/
def decode_cursor (root : HNode) : List Char → HNode → Option HNode
  | [], cur => some cur
  | b :: bs, cur =>
    match cur with
    | .leaf _ _ => none
    | .internal l r _ =>
      let nxt := if b = '0' then l else r
      if nxt.isLeaf then decode_cursor root bs root
      else decode_cursor root bs nxt

/-- A message that can be stored in a C string of bytes: every character is
a nonzero byte. -/
def validMsg (message : List Nat) : Prop :=
  ∀ c ∈ message, 0 < c ∧ c < 256

instance : DecidablePred validMsg := fun _ => by
  unfold validMsg; infer_instance

/-- Every internal node of the tree stores the sum of its children's
frequencies (the invariant established by `create_parent_node`). -/
def freqConsistent : HNode → Prop
  | .leaf _ _ => True
  | .internal l r f => f = l.freq + r.freq ∧ freqConsistent l ∧ freqConsistent r

def decFreqConsistent : (t : HNode) → Decidable (freqConsistent t)
  | .leaf _ _ => .isTrue trivial
  | .internal l r _ =>
    have hl := decFreqConsistent l
    have hr := decFreqConsistent r
    by unfold freqConsistent; exact @instDecidableAnd _ _ _ (@instDecidableAnd _ _ hl hr)

instance : DecidablePred freqConsistent := decFreqConsistent

/-- The minimum stored frequency among a forest of nodes (`0` for an empty
forest, which never occurs in the merge loop). -/
def minFreq : List HNode → Nat
  | [] => 0
  | t :: ts => ts.foldl (fun m u => min m u.freq) t.freq

/-- All leaf characters of a forest, in order. -/
def forestSyms (F : List HNode) : List Nat := (F.map HNode.syms).flatten

/-- The invariant of the merge loop used to prove the code-length ordering:
for any two leaves `a`, `b` of trees of the forest with `freq b < freq a`,
the current depth of `a` is at most the current depth of `b`, and when the
two leaves sit in different trees, the frequency of `b`'s tree is less than
the frequency of `a`'s tree plus (depth gap) times the minimum root
frequency of the forest. -/
def forestInv (F : List HNode) : Prop :=
  ∀ Ta ∈ F, ∀ Tb ∈ F, ∀ a b pa fa pb fb,
    Ta.lookupLeaf a = some (pa, fa) → Tb.lookupLeaf b = some (pb, fb) →
    fb < fa →
    pa.length ≤ pb.length ∧
      (b ∉ Ta.syms →
        Tb.freq < Ta.freq + (pb.length - pa.length) * minFreq F)

/-- The tree built by `main` for a message: frequency table, then
`generate_tree`. -/
def pipeline_tree (message : List Nat) : Option HNode :=
  generate_tree (create_message message)

/-- The code table built by `main` for a message: the frequency table with
the codes filled in by `generate_huffman` from the message's own tree. -/
def pipeline_table (message : List Nat) : List MessageChar :=
  match pipeline_tree message with
  | some root => generate_huffman (create_message message) root
  | none => create_message message

/-- `main`'s encoding of a message with the table built from that same
message. -/
def pipeline_encode (message : List Nat) : List Char :=
  huffman_encode message (pipeline_table message)

/-- `main`'s decoding of the encoded message with the message's own tree. -/
def pipeline_decode (message : List Nat) : Option (List Nat) :=
  match pipeline_tree message with
  | some root => huffman_decode (pipeline_encode message) root
  | none => none

/-- The hardcoded demo message of `main` (59 symbols), as byte values. -/
def demo_message : List Nat :=
  ("aabbccddbbeaebdddfffdbffddabbbbbcdefaabbcccccaabbddfffdcecc".toList).map Char.toNat

/-- The reference encoded bit-string hardcoded in `main`
(`encoded_message_ref`, 150 characters). -/
def demo_encoded : List Char :=
  "001001101011111101011010000001000100101011101101100110110110010100110101010101110100011000100110101111111111111110010011010010111011011001111000111111".toList

/-! ## Lemmas about `sort_nodes` -/

theorem insertNode_perm (n : HNode) (l : List HNode) :
    (insertNode n l).Perm (n :: l) := by
  induction l with
  | nil => simp [insertNode]
  | cons m ms ih =>
    by_cases h : n.freq < m.freq
    · simp [insertNode, h]
    · simp only [insertNode, if_neg h]
      exact ((ih.cons m).trans (List.Perm.swap n m ms)).symm.symm

theorem sort_nodes_aux_perm (l acc : List HNode) :
    (l.foldl (fun a n => insertNode n a) acc).Perm (acc ++ l) := by
  induction l generalizing acc with
  | nil => simp
  | cons x xs ih =>
    rw [List.foldl_cons]
    have h1 : (List.foldl (fun a n => insertNode n a) (insertNode x acc) xs).Perm
        (insertNode x acc ++ xs) := ih (insertNode x acc)
    have h2 : (insertNode x acc ++ xs).Perm ((x :: acc) ++ xs) :=
      (insertNode_perm x acc).append_right xs
    have h3 : ((x :: acc) ++ xs).Perm (acc ++ x :: xs) := List.perm_middle.symm
    exact h1.trans (h2.trans h3)

theorem sort_nodes_perm (l : List HNode) : (sort_nodes l).Perm l := by
  simpa using sort_nodes_aux_perm l []

theorem insertNode_sorted (n : HNode) (l : List HNode)
    (h : l.Pairwise (fun s t => s.freq ≤ t.freq)) :
    (insertNode n l).Pairwise (fun s t => s.freq ≤ t.freq) := by
  induction l with
  | nil => simp [insertNode]
  | cons m ms ih =>
    rcases List.pairwise_cons.mp h with ⟨hm, hms⟩
    by_cases hlt : n.freq < m.freq
    · simp only [insertNode, if_pos hlt]
      refine List.pairwise_cons.mpr ⟨?_, h⟩
      intro t ht
      rcases List.mem_cons.mp ht with rfl | ht
      · exact Nat.le_of_lt hlt
      · exact Nat.le_trans (Nat.le_of_lt hlt) (hm t ht)
    · simp only [insertNode, if_neg hlt]
      refine List.pairwise_cons.mpr ⟨?_, ih hms⟩
      intro t ht
      have : t ∈ n :: ms := (insertNode_perm n ms).mem_iff.mp ht
      rcases List.mem_cons.mp this with rfl | ht'
      · exact Nat.le_of_not_lt hlt
      · exact hm t ht'

theorem sort_nodes_aux_sorted (l acc : List HNode)
    (h : acc.Pairwise (fun s t => s.freq ≤ t.freq)) :
    (l.foldl (fun a n => insertNode n a) acc).Pairwise
      (fun s t => s.freq ≤ t.freq) := by
  induction l generalizing acc with
  | nil => simpa using h
  | cons x xs ih => exact ih (insertNode x acc) (insertNode_sorted x acc h)

theorem sort_nodes_sorted (l : List HNode) :
    (sort_nodes l).Pairwise (fun s t => s.freq ≤ t.freq) := by
  simpa [sort_nodes] using sort_nodes_aux_sorted l [] (by simp)

/-! ## Lemmas about `minFreq` -/

theorem foldl_min_le_init (ts : List HNode) (m : Nat) :
    ts.foldl (fun m u => min m u.freq) m ≤ m := by
  induction ts generalizing m with
  | nil => exact Nat.le_refl m
  | cons u us ih => exact Nat.le_trans (ih (min m u.freq)) (Nat.min_le_left _ _)

theorem foldl_min_le_mem (ts : List HNode) (m : Nat) (t : HNode) (ht : t ∈ ts) :
    ts.foldl (fun m u => min m u.freq) m ≤ t.freq := by
  induction ts generalizing m with
  | nil => cases ht
  | cons u us ih =>
    rcases List.mem_cons.mp ht with rfl | ht'
    · exact Nat.le_trans (foldl_min_le_init us _) (Nat.min_le_right _ _)
    · exact ih _ ht'

theorem foldl_min_attained (ts : List HNode) (m : Nat) :
    ts.foldl (fun m u => min m u.freq) m = m ∨
      ∃ t ∈ ts, ts.foldl (fun m u => min m u.freq) m = t.freq := by
  induction ts generalizing m with
  | nil => exact Or.inl rfl
  | cons u us ih =>
    rcases ih (min m u.freq) with h | ⟨t, ht, h⟩
    · rcases Nat.le_total m u.freq with hle | hle
      · exact Or.inl (by rw [List.foldl_cons, h, Nat.min_eq_left hle])
      · exact Or.inr ⟨u, List.mem_cons_self _ _,
          by rw [List.foldl_cons, h, Nat.min_eq_right hle]⟩
    · exact Or.inr ⟨t, List.mem_cons_of_mem _ ht, by rw [List.foldl_cons]; exact h⟩

theorem minFreq_le_mem {l : List HNode} {t : HNode} (ht : t ∈ l) :
    minFreq l ≤ t.freq := by
  cases l with
  | nil => cases ht
  | cons s ss =>
    rcases List.mem_cons.mp ht with rfl | ht'
    · exact foldl_min_le_init ss _
    · exact foldl_min_le_mem ss _ _ ht'

theorem minFreq_attained {l : List HNode} (h : l ≠ []) :
    ∃ t ∈ l, minFreq l = t.freq := by
  cases l with
  | nil => exact absurd rfl h
  | cons s ss =>
    rcases foldl_min_attained ss s.freq with h' | ⟨t, ht, h'⟩
    · exact ⟨s, List.mem_cons_self _ _, h'⟩
    · exact ⟨t, List.mem_cons_of_mem _ ht, h'⟩

theorem le_minFreq {l : List HNode} {m : Nat} (hne : l ≠ [])
    (h : ∀ t ∈ l, m ≤ t.freq) : m ≤ minFreq l := by
  rcases minFreq_attained hne with ⟨t, ht, heq⟩
  exact heq ▸ h t ht

theorem minFreq_perm {l l' : List HNode} (h : l.Perm l') :
    minFreq l = minFreq l' := by
  rcases eq_or_ne l [] with rfl | hne
  · have : l' = [] := h.symm.eq_nil
    rw [this]
  · have hne' : l' ≠ [] := fun h' => hne (h' ▸ h).eq_nil
    exact Nat.le_antisymm
      (le_minFreq hne' (fun t ht => minFreq_le_mem (h.mem_iff.mpr ht)))
      (le_minFreq hne (fun t ht => minFreq_le_mem (h.mem_iff.mp ht)))

/-! ## Lemmas about leaves, paths and walks -/

theorem syms_leaf (c f : Nat) : (HNode.leaf c f).syms = [c] := rfl

theorem syms_internal (l r : HNode) (f : Nat) :
    (HNode.internal l r f).syms = l.syms ++ r.syms := by
  simp [HNode.syms, HNode.leafData]

theorem lookupLeaf_none_iff {t : HNode} {c : Nat} :
    t.lookupLeaf c = none ↔ c ∉ t.syms := by
  induction t with
  | leaf c' f' =>
    rw [HNode.lookupLeaf, syms_leaf]
    by_cases hc : c' = c
    · rw [if_pos hc]
      constructor
      · intro h
        cases h
      · intro h
        exact absurd (by rw [hc]; exact List.mem_singleton_self c) h
    · rw [if_neg hc]
      exact ⟨fun _ hmem => hc (List.mem_singleton.mp hmem).symm, fun _ => rfl⟩
  | internal l r fr ihl ihr =>
    rw [HNode.lookupLeaf, syms_internal]
    cases hl : l.lookupLeaf c with
    | some pf =>
      obtain ⟨p0, f0⟩ := pf
      have hcl : c ∈ l.syms := by
        by_contra hmem
        rw [ihl.mpr hmem] at hl
        cases hl
      simp [hcl]
    | none =>
      cases hr : r.lookupLeaf c with
      | some pf =>
        obtain ⟨p0, f0⟩ := pf
        have hcr : c ∈ r.syms := by
          by_contra hmem
          rw [ihr.mpr hmem] at hr
          cases hr
        simp [hcr]
      | none =>
        simp [ihl.mp hl, ihr.mp hr]

theorem lookupLeaf_eq_none {t : HNode} {c : Nat} (h : c ∉ t.syms) :
    t.lookupLeaf c = none := lookupLeaf_none_iff.mpr h

theorem lookupLeaf_mem_syms {t : HNode} {c : Nat} {p : List Char} {f : Nat}
    (h : t.lookupLeaf c = some (p, f)) : c ∈ t.syms := by
  by_contra hmem
  rw [lookupLeaf_none_iff.mpr hmem] at h
  cases h

theorem lookupLeaf_of_mem {t : HNode} {c : Nat} (h : c ∈ t.syms) :
    ∃ p f, t.lookupLeaf c = some (p, f) := by
  cases hl : t.lookupLeaf c with
  | some pf =>
    obtain ⟨p0, f0⟩ := pf
    exact ⟨p0, f0, rfl⟩
  | none => exact absurd (lookupLeaf_none_iff.mp hl) (fun h' => h' h)

theorem lookupLeaf_mem_leafData {t : HNode} {c : Nat} {p : List Char} {f : Nat}
    (h : t.lookupLeaf c = some (p, f)) : (c, f) ∈ t.leafData := by
  induction t generalizing p f with
  | leaf c' f' =>
    rw [HNode.lookupLeaf] at h
    by_cases hc : c' = c
    · rw [if_pos hc] at h
      cases h
      simp [HNode.leafData, hc]
    · rw [if_neg hc] at h
      cases h
  | internal l r fr ihl ihr =>
    rw [HNode.lookupLeaf] at h
    simp only [HNode.leafData, List.mem_append]
    cases hl : l.lookupLeaf c with
    | some pf =>
      obtain ⟨p0, f0⟩ := pf
      rw [hl] at h
      cases h
      exact Or.inl (ihl hl)
    | none =>
      rw [hl] at h
      cases hr : r.lookupLeaf c with
      | some pf =>
        obtain ⟨p0, f0⟩ := pf
        rw [hr] at h
        cases h
        exact Or.inr (ihr hr)
      | none =>
        rw [hr] at h
        cases h

theorem lookupLeaf_walk {t : HNode} {c : Nat} {p : List Char} {f : Nat}
    (h : t.lookupLeaf c = some (p, f)) : t.walk p = some (.leaf c f) := by
  induction t generalizing p f with
  | leaf c' f' =>
    rw [HNode.lookupLeaf] at h
    by_cases hc : c' = c
    · rw [if_pos hc] at h
      cases h
      rw [hc]
      rfl
    · rw [if_neg hc] at h
      cases h
  | internal l r fr ihl ihr =>
    rw [HNode.lookupLeaf] at h
    cases hl : l.lookupLeaf c with
    | some pf =>
      obtain ⟨p0, f0⟩ := pf
      rw [hl] at h
      cases h
      rw [HNode.walk, if_pos rfl]
      exact ihl hl
    | none =>
      rw [hl] at h
      cases hr : r.lookupLeaf c with
      | some pf =>
        obtain ⟨p0, f0⟩ := pf
        rw [hr] at h
        cases h
        rw [HNode.walk, if_neg (by decide)]
        exact ihr hr
      | none =>
        rw [hr] at h
        cases h

theorem lookupLeaf_binary {t : HNode} {c : Nat} {p : List Char} {f : Nat}
    (h : t.lookupLeaf c = some (p, f)) : ∀ ch ∈ p, ch = '0' ∨ ch = '1' := by
  induction t generalizing p f with
  | leaf c' f' =>
    rw [HNode.lookupLeaf] at h
    by_cases hc : c' = c
    · rw [if_pos hc] at h
      cases h
      intro ch hch
      cases hch
    · rw [if_neg hc] at h
      cases h
  | internal l r fr ihl ihr =>
    rw [HNode.lookupLeaf] at h
    cases hl : l.lookupLeaf c with
    | some pf =>
      obtain ⟨p0, f0⟩ := pf
      rw [hl] at h
      cases h
      intro ch hch
      rcases List.mem_cons.mp hch with rfl | hch'
      · exact Or.inl rfl
      · exact ihl hl ch hch'
    | none =>
      rw [hl] at h
      cases hr : r.lookupLeaf c with
      | some pf =>
        obtain ⟨p0, f0⟩ := pf
        rw [hr] at h
        cases h
        intro ch hch
        rcases List.mem_cons.mp hch with rfl | hch'
        · exact Or.inr rfl
        · exact ihr hr ch hch'
      | none =>
        rw [hr] at h
        cases h

theorem walk_nil (t : HNode) : t.walk [] = some t := by
  cases t <;> rfl

theorem walk_leaf_cons (c f : Nat) (b : Char) (bs : List Char) :
    (HNode.leaf c f).walk (b :: bs) = none := rfl

theorem walk_append (t : HNode) (p q : List Char) :
    t.walk (p ++ q) = (t.walk p).bind (fun u => u.walk q) := by
  induction p generalizing t with
  | nil => rw [List.nil_append, walk_nil]; rfl
  | cons b bs ih =>
    cases t with
    | leaf c f => rfl
    | internal l r f =>
      rw [List.cons_append, HNode.walk, HNode.walk, ih]

theorem walk_leaf_mem_syms {t : HNode} {p : List Char} {c f : Nat}
    (h : t.walk p = some (.leaf c f)) : c ∈ t.syms := by
  induction p generalizing t with
  | nil =>
    rw [HNode.walk] at h
    cases h
    simp [syms_leaf]
  | cons b bs ih =>
    cases t with
    | leaf c' f' =>
      rw [HNode.walk] at h
      cases h
    | internal l r fr =>
      rw [HNode.walk] at h
      rw [syms_internal, List.mem_append]
      by_cases hb : b = '0'
      · rw [if_pos hb] at h
        exact Or.inl (ih h)
      · rw [if_neg hb] at h
        exact Or.inr (ih h)

theorem walk_lookupLeaf {t : HNode} {p : List Char} {c f : Nat}
    (hnd : t.syms.Nodup) (hbin : ∀ ch ∈ p, ch = '0' ∨ ch = '1')
    (h : t.walk p = some (.leaf c f)) : t.lookupLeaf c = some (p, f) := by
  induction p generalizing t with
  | nil =>
    rw [HNode.walk] at h
    cases h
    rw [HNode.lookupLeaf, if_pos rfl]
  | cons b bs ih =>
    cases t with
    | leaf c' f' =>
      rw [HNode.walk] at h
      cases h
    | internal l r fr =>
      rw [HNode.walk] at h
      rw [syms_internal] at hnd
      have hbin' : ∀ ch ∈ bs, ch = '0' ∨ ch = '1' :=
        fun ch hch => hbin ch (List.mem_cons_of_mem _ hch)
      rw [HNode.lookupLeaf]
      by_cases hb : b = '0'
      · rw [if_pos hb] at h
        rw [ih hnd.of_append_left hbin' h, hb]
      · rw [if_neg hb] at h
        have hcr : c ∈ r.syms := walk_leaf_mem_syms h
        have hcl : c ∉ l.syms :=
          fun hmem => (List.disjoint_of_nodup_append hnd) hmem hcr
        have hb1 : b = '1' := by
          rcases hbin b (List.mem_cons_self _ _) with h0 | h1
          · exact absurd h0 hb
          · exact h1
        rw [lookupLeaf_eq_none hcl, ih hnd.of_append_right hbin' h, hb1]

/-! ## Lemmas about the merge loop -/

theorem create_parent_leafData (t1 t2 : HNode) :
    (create_parent_node t1 t2).leafData = t1.leafData ++ t2.leafData := rfl

theorem create_parent_freq (t1 t2 : HNode) :
    (create_parent_node t1 t2).freq = t1.freq + t2.freq := rfl

theorem freqConsistent_parent {t1 t2 : HNode} (h1 : freqConsistent t1)
    (h2 : freqConsistent t2) : freqConsistent (create_parent_node t1 t2) :=
  ⟨rfl, h1, h2⟩

theorem huffman_loop_leafData (fuel : Nat) :
    ∀ (F : List HNode) (root : HNode), huffman_loop fuel F = some root →
      root.leafData.Perm (F.map HNode.leafData).flatten := by
  induction fuel with
  | zero =>
    intro F root h
    match F, h with
    | [], h => cases h
    | [t], h =>
      cases h
      simp
    | t1 :: t2 :: rest, h => cases h
  | succ fuel ih =>
    intro F root h
    match F, h with
    | [], h => cases h
    | [t], h =>
      cases h
      simp
    | t1 :: t2 :: rest, h =>
      have h' := ih _ _ h
      refine h'.trans ?_
      have hperm : (sort_nodes (create_parent_node t1 t2 :: rest)).Perm
          (create_parent_node t1 t2 :: rest) := sort_nodes_perm _
      refine ((hperm.map HNode.leafData).flatten).trans ?_
      simp [create_parent_leafData, List.append_assoc]

theorem huffman_loop_freq (fuel : Nat) :
    ∀ (F : List HNode) (root : HNode), huffman_loop fuel F = some root →
      root.freq = (F.map HNode.freq).sum := by
  induction fuel with
  | zero =>
    intro F root h
    match F, h with
    | [], h => cases h
    | [t], h =>
      cases h
      simp
    | t1 :: t2 :: rest, h => cases h
  | succ fuel ih =>
    intro F root h
    match F, h with
    | [], h => cases h
    | [t], h =>
      cases h
      simp
    | t1 :: t2 :: rest, h =>
      have h' := ih _ _ h
      rw [h']
      have hperm : (sort_nodes (create_parent_node t1 t2 :: rest)).Perm
          (create_parent_node t1 t2 :: rest) := sort_nodes_perm _
      rw [(hperm.map HNode.freq).sum_eq]
      simp [create_parent_freq, Nat.add_assoc]

theorem huffman_loop_freqConsistent (fuel : Nat) :
    ∀ (F : List HNode) (root : HNode), (∀ t ∈ F, freqConsistent t) →
      huffman_loop fuel F = some root → freqConsistent root := by
  induction fuel with
  | zero =>
    intro F root hall h
    match F, h with
    | [], h => cases h
    | [t], h =>
      cases h
      exact hall _ (List.mem_singleton_self _)
    | t1 :: t2 :: rest, h => cases h
  | succ fuel ih =>
    intro F root hall h
    match F, hall, h with
    | [], _, h => cases h
    | [t], hall, h =>
      cases h
      exact hall _ (List.mem_singleton_self _)
    | t1 :: t2 :: rest, hall, h =>
      refine ih _ _ ?_ h
      intro t ht
      have ht' : t ∈ create_parent_node t1 t2 :: rest :=
        (sort_nodes_perm _).mem_iff.mp ht
      rcases List.mem_cons.mp ht' with rfl | ht''
      · exact freqConsistent_parent
          (hall _ (List.mem_cons_self _ _))
          (hall _ (List.mem_cons_of_mem _ (List.mem_cons_self _ _)))
      · exact hall _ (List.mem_cons_of_mem _ (List.mem_cons_of_mem _ ht''))

theorem leaves_leafData_flatten (tbl : List MessageChar) :
    ((tbl.map (fun mc => HNode.leaf mc.c mc.freq)).map HNode.leafData).flatten =
      tbl.map (fun e => (e.c, e.freq)) := by
  induction tbl with
  | nil => rfl
  | cons e es ih =>
    simp only [List.map_cons, List.flatten_cons, HNode.leafData, ih,
      List.singleton_append]

theorem generate_tree_leafData {tbl : List MessageChar} {root : HNode}
    (h : generate_tree tbl = some root) :
    root.leafData.Perm (tbl.map (fun e => (e.c, e.freq))) := by
  have h' := huffman_loop_leafData _ _ _ h
  refine h'.trans ?_
  have hperm := ((sort_nodes_perm
    (tbl.map (fun mc => HNode.leaf mc.c mc.freq))).map HNode.leafData).flatten
  refine hperm.trans ?_
  rw [leaves_leafData_flatten]

theorem generate_tree_freq {tbl : List MessageChar} {root : HNode}
    (h : generate_tree tbl = some root) :
    root.freq = (tbl.map (fun e => e.freq)).sum := by
  have h' := huffman_loop_freq _ _ _ h
  rw [h', ((sort_nodes_perm _).map HNode.freq).sum_eq, List.map_map]
  rfl

theorem generate_tree_freqConsistent {tbl : List MessageChar} {root : HNode}
    (h : generate_tree tbl = some root) : freqConsistent root := by
  refine huffman_loop_freqConsistent _ _ _ ?_ h
  intro t ht
  have ht' := (sort_nodes_perm _).mem_iff.mp ht
  rcases List.mem_map.mp ht' with ⟨e, _, rfl⟩
  trivial

/-! ## Lemmas about `create_message` -/

theorem create_message_chars (msg : List Nat) :
    (create_message msg).map (fun e => e.c) =
      (List.range 256).filter (fun b => 0 < count_frequencies msg b) := by
  rw [create_message, List.map_map]
  exact List.map_id _

theorem create_message_chars_nodup (msg : List Nat) :
    ((create_message msg).map (fun e => e.c)).Nodup := by
  rw [create_message_chars]
  exact (List.nodup_range 256).filter _

theorem create_message_mem {msg : List Nat} {e : MessageChar}
    (he : e ∈ create_message msg) :
    e.freq = msg.count e.c ∧ e.code = none ∧ 0 < msg.count e.c ∧ e.c < 256 := by
  rcases List.mem_map.mp he with ⟨b, hb, rfl⟩
  rcases List.mem_filter.mp hb with ⟨hbr, hbc⟩
  exact ⟨rfl, rfl, of_decide_eq_true hbc, List.mem_range.mp hbr⟩

theorem create_message_mem_of (msg : List Nat) {c : Nat} (hc : c ∈ msg)
    (h256 : c < 256) :
    (⟨c, msg.count c, none⟩ : MessageChar) ∈ create_message msg := by
  refine List.mem_map.mpr ⟨c, List.mem_filter.mpr ⟨List.mem_range.mpr h256, ?_⟩, rfl⟩
  exact decide_eq_true (List.count_pos_iff.mpr hc)

theorem mem_chars_create_message {msg : List Nat} {c : Nat} :
    c ∈ (create_message msg).map (fun e => e.c) ↔ c ∈ msg ∧ c < 256 := by
  rw [create_message_chars, List.mem_filter, List.mem_range]
  constructor
  · rintro ⟨h1, h2⟩
    exact ⟨List.count_pos_iff.mp (of_decide_eq_true h2), h1⟩
  · rintro ⟨h1, h2⟩
    exact ⟨h2, decide_eq_true (List.count_pos_iff.mpr h1)⟩

theorem sum_map_filter_eq (l : List Nat) (p : Nat → Bool) (f : Nat → Nat)
    (h : ∀ b ∈ l, p b = false → f b = 0) :
    ((l.filter p).map f).sum = (l.map f).sum := by
  induction l with
  | nil => rfl
  | cons b bs ih =>
    have ih' := ih (fun x hx => h x (List.mem_cons_of_mem _ hx))
    cases hp : p b with
    | true => rw [List.filter_cons_of_pos hp, List.map_cons, List.map_cons,
        List.sum_cons, List.sum_cons, ih']
    | false =>
      rw [List.filter_cons_of_neg (by rw [hp]; exact Bool.false_ne_true),
        List.map_cons, List.sum_cons, h b (List.mem_cons_self _ _) hp, ih']
      omega

theorem sum_map_succ_at (c : Nat) (g h : Nat → Nat) :
    ∀ l : List Nat, (∀ b ∈ l, g b = h b + if b = c then 1 else 0) →
      (l.map g).sum = (l.map h).sum + l.count c := by
  intro l
  induction l with
  | nil => intro _; rfl
  | cons b bs ih =>
    intro hp
    rw [List.map_cons, List.map_cons, List.sum_cons, List.sum_cons,
      ih (fun x hx => hp x (List.mem_cons_of_mem _ hx)),
      hp b (List.mem_cons_self _ _), List.count_cons]
    by_cases hbc : b = c
    · subst hbc
      simp
      omega
    · simp [hbc, Ne.symm hbc]
      omega

theorem sum_counts (msg : List Nat) :
    ∀ l : List Nat, l.Nodup → (∀ c ∈ msg, c ∈ l) →
      (l.map (fun b => msg.count b)).sum = msg.length := by
  induction msg with
  | nil => intro l _ _; simp
  | cons c ms ih =>
    intro l hnd hsub
    have hc : c ∈ l := hsub c (List.mem_cons_self _ _)
    have h1 : (l.map (fun b => (c :: ms).count b)).sum
        = (l.map (fun b => ms.count b)).sum + l.count c := by
      refine sum_map_succ_at c _ _ l (fun b _ => ?_)
      rw [List.count_cons]
      by_cases hbc : b = c
      · subst hbc
        simp
      · simp [hbc, Ne.symm hbc]
    rw [h1, ih l hnd (fun x hx => hsub x (List.mem_cons_of_mem _ hx)),
      List.length_cons, List.count_eq_one_of_mem hnd hc]

theorem create_message_freq_sum (msg : List Nat)
    (hv : ∀ c ∈ msg, c < 256) :
    ((create_message msg).map (fun e => e.freq)).sum = msg.length := by
  rw [create_message, List.map_map]
  have h1 : (((List.range 256).filter
        (fun b => 0 < count_frequencies msg b)).map
        (fun b => msg.count b)).sum
      = ((List.range 256).map (fun b => msg.count b)).sum := by
    refine sum_map_filter_eq _ _ _ (fun b _ hb => ?_)
    have h' := of_decide_eq_false hb
    simp only [count_frequencies] at h'
    omega
  have h2 := sum_counts msg (List.range 256) (List.nodup_range 256)
    (fun x hx => List.mem_range.mpr (hv x hx))
  calc (((List.range 256).filter (fun b => 0 < count_frequencies msg b)).map
        ((fun e : MessageChar => e.freq) ∘
          (fun b => ⟨b, count_frequencies msg b, none⟩))).sum
      = (((List.range 256).filter (fun b => 0 < count_frequencies msg b)).map
        (fun b => msg.count b)).sum := rfl
    _ = msg.length := by rw [h1, h2]

/-! ## Structure of a generated tree -/

theorem generate_tree_syms {tbl : List MessageChar} {root : HNode}
    (h : generate_tree tbl = some root) :
    root.syms.Perm (tbl.map (fun e => e.c)) := by
  have h' := (generate_tree_leafData h).map Prod.fst
  rw [List.map_map] at h'
  exact h'

theorem generate_tree_syms_nodup {tbl : List MessageChar} {root : HNode}
    (hnd : (tbl.map (fun e => e.c)).Nodup)
    (h : generate_tree tbl = some root) : root.syms.Nodup :=
  ((generate_tree_syms h).nodup_iff).mpr hnd

theorem generate_tree_not_leaf {tbl : List MessageChar} {root : HNode}
    (h2 : 2 ≤ tbl.length) (h : generate_tree tbl = some root) :
    root.isLeaf = false := by
  cases root with
  | leaf c f =>
    have hl := (generate_tree_syms h).length_eq
    rw [syms_leaf, List.length_map] at hl
    simp only [List.length_singleton] at hl
    omega
  | internal l r f => rfl

/-! ## The code table produced by `generate_huffman` -/

theorem list_map_id_of {α : Type} (l : List α) (f : α → α)
    (h : ∀ x ∈ l, f x = x) : l.map f = l := by
  induction l with
  | nil => rfl
  | cons x xs ih =>
    rw [List.map_cons, h x (List.mem_cons_self _ _),
      ih (fun y hy => h y (List.mem_cons_of_mem _ hy))]

theorem set_code_eq_map {tbl : List MessageChar} {c : Nat} (p : List Char)
    (hnd : (tbl.map (fun e => e.c)).Nodup) :
    set_code c p tbl =
      tbl.map (fun e => if e.c = c then ⟨e.c, e.freq, some p⟩ else e) := by
  induction tbl with
  | nil => rfl
  | cons mc mcs ih =>
    rw [List.map_cons] at hnd
    have hnd' := hnd.of_cons
    rw [set_code, List.map_cons]
    by_cases hc : mc.c = c
    · rw [if_pos hc, if_pos hc]
      have : mcs.map (fun e => if e.c = c then (⟨e.c, e.freq, some p⟩ : MessageChar) else e)
          = mcs := by
        refine list_map_id_of _ _ (fun e he => ?_)
        have hne : e.c ≠ c := by
          intro hec
          have : mc.c ∈ mcs.map (fun e => e.c) :=
            List.mem_map.mpr ⟨e, he, by rw [hec, hc]⟩
          exact (List.nodup_cons.mp hnd).1 this
        rw [if_neg hne]
      rw [this]
    · rw [if_neg hc, if_neg hc, ih hnd']

theorem generate_huffman_aux_chars (t : HNode) :
    ∀ (tbl : List MessageChar) (path : List Char),
      (generate_huffman_aux tbl t path).map (fun e => e.c) =
        tbl.map (fun e => e.c) := by
  induction t with
  | leaf c f =>
    intro tbl path
    rw [generate_huffman_aux]
    induction tbl with
    | nil => rfl
    | cons mc mcs ih =>
      rw [set_code, List.map_cons]
      by_cases hc : mc.c = c
      · rw [if_pos hc, List.map_cons]
      · rw [if_neg hc, List.map_cons, ih]
  | internal l r fr ihl ihr =>
    intro tbl path
    rw [generate_huffman_aux, ihr, ihl]

theorem generate_huffman_aux_eq (t : HNode) :
    ∀ (tbl : List MessageChar) (path : List Char), t.syms.Nodup →
      (tbl.map (fun e => e.c)).Nodup →
      generate_huffman_aux tbl t path =
        tbl.map (fun e =>
          match t.lookupLeaf e.c with
          | some (p, _) => ⟨e.c, e.freq, some (path ++ p)⟩
          | none => e) := by
  induction t with
  | leaf c f =>
    intro tbl path _ hnd
    rw [generate_huffman_aux, set_code_eq_map path hnd]
    refine List.map_congr_left (fun e _ => ?_)
    by_cases hc : e.c = c
    · simp only [if_pos hc, HNode.lookupLeaf, if_pos hc.symm, List.append_nil]
    · simp only [if_neg hc, HNode.lookupLeaf,
        if_neg (fun h : c = e.c => hc h.symm)]
  | internal l r fr ihl ihr =>
    intro tbl path hnd hndtbl
    rw [syms_internal] at hnd
    have hdisj := List.disjoint_of_nodup_append hnd
    rw [generate_huffman_aux, ihl tbl (path ++ ['0']) hnd.of_append_left hndtbl,
      ihr _ (path ++ ['1']) hnd.of_append_right
        (by rw [List.map_map]
            have : ((fun e : MessageChar => e.c) ∘ fun e : MessageChar =>
                (match l.lookupLeaf e.c with
                  | some (p, _) => (⟨e.c, e.freq, some (path ++ ['0'] ++ p)⟩ : MessageChar)
                  | none => e)) = fun e : MessageChar => e.c := by
              funext e
              cases hl : l.lookupLeaf e.c with
              | some pf =>
                obtain ⟨p0, f0⟩ := pf
                simp [Function.comp, hl]
              | none => simp [Function.comp, hl]
            rw [this]
            exact hndtbl),
      List.map_map]
    refine List.map_congr_left (fun e _ => ?_)
    simp only [Function.comp]
    cases hl : l.lookupLeaf e.c with
    | some pf =>
      obtain ⟨p0, f0⟩ := pf
      have hnr : e.c ∉ r.syms :=
        fun hmem' => hdisj (lookupLeaf_mem_syms hl) hmem'
      simp only [hl, lookupLeaf_eq_none hnr, HNode.lookupLeaf]
      simp [List.append_assoc]
    | none =>
      simp only [hl, HNode.lookupLeaf]
      cases hr : r.lookupLeaf e.c with
      | some pf =>
        obtain ⟨p0, f0⟩ := pf
        simp [hr, List.append_assoc]
      | none => simp [hr]

theorem generate_huffman_eq {tbl : List MessageChar} {root : HNode}
    (hndt : root.syms.Nodup) (hnd : (tbl.map (fun e => e.c)).Nodup) :
    generate_huffman tbl root =
      tbl.map (fun e =>
        match root.lookupLeaf e.c with
        | some (p, _) => ⟨e.c, e.freq, some p⟩
        | none => e) := by
  rw [generate_huffman, generate_huffman_aux_eq root tbl [] hndt hnd]
  refine List.map_congr_left (fun e _ => ?_)
  cases hl : root.lookupLeaf e.c with
  | some pf =>
    obtain ⟨p0, f0⟩ := pf
    simp
  | none => simp

theorem find?_char {tbl : List MessageChar} {c : Nat}
    (h : c ∈ tbl.map (fun e => e.c)) :
    ∃ e, tbl.find? (fun mc => mc.c == c) = some e ∧ e.c = c ∧ e ∈ tbl := by
  induction tbl with
  | nil => cases h
  | cons mc mcs ih =>
    by_cases hc : mc.c = c
    · have htrue : (mc.c == c) = true := beq_iff_eq.mpr hc
      exact ⟨mc, by rw [List.find?_cons]; simp only [htrue],
        hc, List.mem_cons_self _ _⟩
    · rw [List.map_cons] at h
      rcases List.mem_cons.mp h with h' | h'
      · exact absurd h'.symm hc
      · rcases ih h' with ⟨e, h1, h2, h3⟩
        have hfalse : (mc.c == c) = false := beq_eq_false_iff_ne.mpr hc
        exact ⟨e, by rw [List.find?_cons]; simp only [hfalse]; exact h1,
          h2, List.mem_cons_of_mem _ h3⟩

theorem find?_char_none {tbl : List MessageChar} {c : Nat}
    (h : c ∉ tbl.map (fun e => e.c)) :
    tbl.find? (fun mc => mc.c == c) = none := by
  induction tbl with
  | nil => rfl
  | cons mc mcs ih =>
    rw [List.map_cons] at h
    have h1 : mc.c ≠ c := fun h' => h (List.mem_cons.mpr (Or.inl h'.symm))
    have h2 : c ∉ mcs.map (fun e => e.c) :=
      fun h' => h (List.mem_cons.mpr (Or.inr h'))
    have hfalse : (mc.c == c) = false := beq_eq_false_iff_ne.mpr h1
    rw [List.find?_cons]
    simp only [hfalse]
    exact ih h2

/-! ## Lemmas about the decoder -/

theorem size_pos (t : HNode) : 0 < t.size := by
  cases t with
  | leaf c f => exact Nat.one_pos
  | internal l r f => simp [HNode.size]

theorem child_size_lt (l r : HNode) (fr : Nat) (b : Char) :
    (if b = '0' then l else r).size < (HNode.internal l r fr).size := by
  by_cases hb : b = '0'
  · rw [if_pos hb]
    have := size_pos r
    simp [HNode.size]
    omega
  · rw [if_neg hb]
    have := size_pos l
    simp [HNode.size]
    omega

theorem decode_loop_code (root : HNode) :
    ∀ (p : List Char) (cur : HNode) (c f : Nat) (rest : List Char)
      (acc : List Nat),
      cur.walk p = some (.leaf c f) → p ≠ [] →
      decode_loop root (p ++ rest) cur acc =
        decode_loop root rest root (c :: acc) := by
  intro p
  induction p with
  | nil => intro _ _ _ _ _ _ hne; exact absurd rfl hne
  | cons b bs ih =>
    intro cur c f rest acc hw _
    cases cur with
    | leaf c' f' =>
      rw [HNode.walk] at hw
      cases hw
    | internal l r fr =>
      rw [HNode.walk] at hw
      rw [List.cons_append]
      simp only [decode_loop]
      cases hnxt : (if b = '0' then l else r) with
      | leaf c2 f2 =>
        rw [hnxt] at hw
        cases bs with
        | nil =>
          rw [walk_nil] at hw
          cases hw
          simp [HNode.isLeaf, HNode.sym]
        | cons b2 bs2 =>
          rw [walk_leaf_cons] at hw
          cases hw
      | internal l2 r2 f2 =>
        rw [hnxt] at hw
        have hbs : bs ≠ [] := by
          intro hemp
          rw [hemp, walk_nil] at hw
          cases hw
        simp only [HNode.isLeaf, if_neg (by simp : ¬(false = true))]
        exact ih _ c f rest acc hw hbs

theorem decode_loop_encode (root : HNode) (code : Nat → List Char) :
    ∀ (ms : List Nat) (acc : List Nat),
      (∀ c ∈ ms, code c ≠ [] ∧ ∃ f, root.walk (code c) = some (.leaf c f)) →
      decode_loop root ((ms.map code).flatten) root acc =
        some (acc.reverse ++ ms) := by
  intro ms
  induction ms with
  | nil =>
    intro acc _
    simp [decode_loop]
  | cons c ms ih =>
    intro acc hc
    rw [List.map_cons, List.flatten_cons]
    obtain ⟨hne, f, hw⟩ := hc c (List.mem_cons_self _ _)
    rw [decode_loop_code root (code c) root c f _ acc hw hne,
      ih (c :: acc) (fun x hx => hc x (List.mem_cons_of_mem _ hx))]
    simp

theorem decode_loop_first (root : HNode) :
    ∀ (bits : List Char) (cur : HNode) (acc res : List Nat),
      cur.size ≤ root.size →
      decode_loop root bits cur acc = some res →
      (bits = [] ∧ cur = root ∧ res = acc.reverse) ∨
      (∃ p c f rest, bits = p ++ rest ∧ p ≠ [] ∧
        cur.walk p = some (.leaf c f) ∧
        decode_loop root rest root (c :: acc) = some res) := by
  intro bits
  induction bits with
  | nil =>
    intro cur acc res _ h
    rw [decode_loop] at h
    by_cases hc : cur = root
    · rw [if_pos hc] at h
      exact Or.inl ⟨rfl, hc, (Option.some.inj h).symm⟩
    · rw [if_neg hc] at h
      cases h
  | cons b bs ih =>
    intro cur acc res hsize h
    cases cur with
    | leaf c' f' =>
      rw [decode_loop] at h
      cases h
    | internal l r fr =>
      simp only [decode_loop] at h
      cases hnxt : (if b = '0' then l else r) with
      | leaf c f =>
        rw [hnxt] at h
        simp only [HNode.isLeaf, if_pos rfl, HNode.sym] at h
        refine Or.inr ⟨[b], c, f, bs, rfl, List.cons_ne_nil _ _, ?_, h⟩
        rw [HNode.walk, hnxt, walk_nil]
      | internal l2 r2 f2 =>
        rw [hnxt] at h
        simp only [HNode.isLeaf, if_neg (by simp : ¬(false = true))] at h
        have hlt : (HNode.internal l2 r2 f2).size < (HNode.internal l r fr).size := by
          rw [← hnxt]
          exact child_size_lt l r fr b
        rcases ih (HNode.internal l2 r2 f2) acc res
            (Nat.le_of_lt (Nat.lt_of_lt_of_le hlt hsize)) h with
          ⟨_, hcur, _⟩ | ⟨p, c, f, rest, hbs, hpne, hw, hrest⟩
        · exfalso
          have : root.size < root.size := by
            calc root.size = (HNode.internal l2 r2 f2).size := by rw [hcur]
              _ < (HNode.internal l r fr).size := hlt
              _ ≤ root.size := hsize
          exact Nat.lt_irrefl _ this
        · refine Or.inr ⟨b :: p, c, f, rest, by rw [hbs, List.cons_append], ?_, ?_, hrest⟩
          · exact List.cons_ne_nil _ _
          · rw [HNode.walk, hnxt]
            exact hw

theorem decode_loop_sound (root : HNode) (hnd : root.syms.Nodup) :
    ∀ (n : Nat) (bits : List Char) (acc res : List Nat), bits.length ≤ n →
      (∀ ch ∈ bits, ch = '0' ∨ ch = '1') →
      decode_loop root bits root acc = some res →
      ∃ ms, res = acc.reverse ++ ms ∧ (∀ c ∈ ms, c ∈ root.syms) ∧
        bits = (ms.map (fun c =>
          match root.lookupLeaf c with
          | some (p, _) => p
          | none => [])).flatten := by
  intro n
  induction n with
  | zero =>
    intro bits acc res hlen _ h
    have hbits : bits = [] := List.length_eq_zero.mp (Nat.le_zero.mp hlen)
    subst hbits
    rw [decode_loop, if_pos rfl] at h
    refine ⟨[], ?_, ?_, rfl⟩
    · rw [← Option.some.inj h]
      simp
    · intro c hc
      cases hc
  | succ n ih =>
    intro bits acc res hlen hbin h
    rcases decode_loop_first root bits root acc res (Nat.le_refl _) h with
      ⟨rfl, _, rfl⟩ | ⟨p, c, f, rest, rfl, hpne, hw, hrest⟩
    · refine ⟨[], by simp, ?_, rfl⟩
      intro c hc
      cases hc
    · have hbinp : ∀ ch ∈ p, ch = '0' ∨ ch = '1' :=
        fun ch hch => hbin ch (List.mem_append_left _ hch)
      have hlk := walk_lookupLeaf hnd hbinp hw
      have hlenr : rest.length ≤ n := by
        rw [List.length_append] at hlen
        have : 1 ≤ p.length := by
          cases p with
          | nil => exact absurd rfl hpne
          | cons x xs => simp
        omega
      rcases ih rest (c :: acc) res hlenr
          (fun ch hch => hbin ch (List.mem_append_right _ hch)) hrest with
        ⟨ms, hres, hmem, hbits⟩
      refine ⟨c :: ms, ?_, ?_, ?_⟩
      · rw [hres]
        simp
      · intro x hx
        rcases List.mem_cons.mp hx with rfl | hx'
        · exact lookupLeaf_mem_syms hlk
        · exact hmem x hx'
      · rw [List.map_cons, List.flatten_cons, hlk, ← hbits]

/-! ## Pipeline-level lemmas -/

theorem huffman_loop_isSome :
    ∀ (fuel : Nat) (F : List HNode), F ≠ [] → F.length ≤ fuel + 1 →
      ∃ root, huffman_loop fuel F = some root := by
  intro fuel
  induction fuel with
  | zero =>
    intro F hne hlen
    match F, hne, hlen with
    | [t], _, _ => exact ⟨t, rfl⟩
    | t1 :: t2 :: rest, _, hlen => simp at hlen
  | succ fuel ih =>
    intro F hne hlen
    match F, hne, hlen with
    | [t], _, _ => exact ⟨t, rfl⟩
    | t1 :: t2 :: rest, _, hlen =>
      have hlen2 : (sort_nodes (create_parent_node t1 t2 :: rest)).length
          = rest.length + 1 := by
        rw [(sort_nodes_perm _).length_eq, List.length_cons]
      refine ih _ (fun hnil => ?_) ?_
      · rw [hnil] at hlen2
        cases hlen2
      · rw [hlen2]
        simp only [List.length_cons] at hlen
        omega

theorem generate_tree_isSome {tbl : List MessageChar} (hne : tbl ≠ []) :
    ∃ root, generate_tree tbl = some root := by
  rw [generate_tree]
  have hlen : (sort_nodes (tbl.map (fun mc => HNode.leaf mc.c mc.freq))).length
      = tbl.length := by
    rw [(sort_nodes_perm _).length_eq, List.length_map]
  refine huffman_loop_isSome _ _ (fun hnil => hne ?_) ?_
  · rw [hnil] at hlen
    have : tbl.length = 0 := hlen.symm
    exact List.length_eq_zero.mp this
  · rw [hlen]
    omega

theorem create_message_ne_nil {msg : List Nat} (hv : validMsg msg)
    (hne : msg ≠ []) : create_message msg ≠ [] := by
  cases msg with
  | nil => exact absurd rfl hne
  | cons c ms =>
    intro hempty
    have hc : c ∈ (create_message (c :: ms)).map (fun e => e.c) :=
      mem_chars_create_message.mpr
        ⟨List.mem_cons_self _ _, (hv c (List.mem_cons_self _ _)).2⟩
    rw [hempty] at hc
    cases hc

theorem pipeline_table_mem {msg : List Nat} {root : HNode} {e : MessageChar}
    (hroot : generate_tree (create_message msg) = some root)
    (he : e ∈ generate_huffman (create_message msg) root) :
    e.freq = msg.count e.c ∧
      e.code = (root.lookupLeaf e.c).map Prod.fst ∧
      (∀ p f, root.lookupLeaf e.c = some (p, f) → f = msg.count e.c) := by
  have hnd := create_message_chars_nodup msg
  have hnds := generate_tree_syms_nodup hnd hroot
  rw [generate_huffman_eq hnds hnd] at he
  rcases List.mem_map.mp he with ⟨e0, he0, rfl⟩
  rcases create_message_mem he0 with ⟨hfreq, hcode, _, _⟩
  have hcount : ∀ p f, root.lookupLeaf e0.c = some (p, f) →
      f = msg.count e0.c := by
    intro p f hl
    have hmem := lookupLeaf_mem_leafData hl
    have hperm := generate_tree_leafData hroot
    have hmem' : (e0.c, f) ∈ (create_message msg).map (fun e => (e.c, e.freq)) :=
      hperm.mem_iff.mp hmem
    rcases List.mem_map.mp hmem' with ⟨e2, he2, heq⟩
    rcases create_message_mem he2 with ⟨hf2, _, _, _⟩
    have h1 : e2.c = e0.c := congrArg Prod.fst heq
    have h2 : e2.freq = f := congrArg Prod.snd heq
    rw [← h2, hf2, h1]
  cases hl : root.lookupLeaf e0.c with
  | some pf =>
    obtain ⟨p0, f0⟩ := pf
    simp only [hl]
    refine ⟨hfreq, rfl, ?_⟩
    intro p f h
    have hf : f0 = f := congrArg Prod.snd (Option.some.inj h)
    rw [← hf]
    exact hcount p0 f0 hl
  | none =>
    simp only [hl]
    exact ⟨hfreq, hcode, fun p f h => by cases h⟩

theorem lookupLeaf_ne_nil {root : HNode} (hnl : root.isLeaf = false)
    {c : Nat} {p : List Char} {f : Nat}
    (h : root.lookupLeaf c = some (p, f)) : p ≠ [] := by
  cases root with
  | leaf c' f' => cases hnl
  | internal l r fr =>
    rw [HNode.lookupLeaf] at h
    cases hl : l.lookupLeaf c with
    | some pf =>
      obtain ⟨p0, f0⟩ := pf
      rw [hl] at h
      cases h
      exact List.cons_ne_nil _ _
    | none =>
      rw [hl] at h
      cases hr : r.lookupLeaf c with
      | some pf =>
        obtain ⟨p0, f0⟩ := pf
        rw [hr] at h
        cases h
        exact List.cons_ne_nil _ _
      | none =>
        rw [hr] at h
        cases h

theorem pipeline_code_spec {msg : List Nat} {root : HNode}
    (hroot : generate_tree (create_message msg) = some root)
    {c : Nat} (hc : c ∈ root.syms) :
    ∃ p, root.lookupLeaf c = some (p, msg.count c) ∧
      code_of (generate_huffman (create_message msg) root) c = p := by
  have hchars : (generate_huffman (create_message msg) root).map (fun e => e.c)
      = (create_message msg).map (fun e => e.c) := by
    rw [generate_huffman]
    exact generate_huffman_aux_chars root _ []
  have hc' : c ∈ (generate_huffman (create_message msg) root).map (fun e => e.c) := by
    rw [hchars]
    exact ((generate_tree_syms hroot).mem_iff).mp hc
  rcases find?_char hc' with ⟨e, hfind, hec, hmem⟩
  rcases pipeline_table_mem hroot hmem with ⟨_, hcode, hcount⟩
  rcases lookupLeaf_of_mem hc with ⟨p, f, hl⟩
  have hf : f = msg.count c := by
    have := hcount p f (by rw [hec]; exact hl)
    rw [hec] at this
    exact this
  refine ⟨p, by rw [hl, hf], ?_⟩
  rw [code_of, hfind]
  show e.code.getD [] = p
  rw [hec] at hcode
  rw [hcode, hl]
  rfl

theorem code_of_binary {msg : List Nat} {root : HNode}
    (hroot : generate_tree (create_message msg) = some root) (c : Nat) :
    ∀ ch ∈ code_of (generate_huffman (create_message msg) root) c,
      ch = '0' ∨ ch = '1' := by
  intro ch hch
  rw [code_of] at hch
  cases hfind : (generate_huffman (create_message msg) root).find?
      (fun mc => mc.c == c) with
  | none =>
    rw [hfind] at hch
    cases hch
  | some e =>
    rw [hfind] at hch
    have hch' : ch ∈ e.code.getD [] := hch
    have hmem : e ∈ generate_huffman (create_message msg) root :=
      List.mem_of_find?_eq_some hfind
    rcases pipeline_table_mem hroot hmem with ⟨_, hcode, _⟩
    cases hl : root.lookupLeaf e.c with
    | none =>
      rw [hl] at hcode
      rw [hcode] at hch'
      cases hch'
    | some pf =>
      obtain ⟨p0, f0⟩ := pf
      rw [hl] at hcode
      rw [hcode] at hch'
      exact lookupLeaf_binary hl ch hch'

theorem huffman_encode_binary {msg ms : List Nat} {root : HNode}
    (hroot : generate_tree (create_message msg) = some root) :
    ∀ ch ∈ huffman_encode ms (generate_huffman (create_message msg) root),
      ch = '0' ∨ ch = '1' := by
  intro ch hch
  rw [huffman_encode] at hch
  rcases List.mem_flatten.mp hch with ⟨l, hl, hchl⟩
  rcases List.mem_map.mp hl with ⟨c, _, rfl⟩
  exact code_of_binary hroot c ch hchl

theorem decode_encode_syms {msg : List Nat} {root : HNode}
    (hroot : generate_tree (create_message msg) = some root)
    (hnl : root.isLeaf = false) :
    ∀ ms, (∀ c ∈ ms, c ∈ root.syms) →
      huffman_decode
        (huffman_encode ms (generate_huffman (create_message msg) root)) root
      = some ms := by
  intro ms hms
  rw [huffman_encode, huffman_decode,
    decode_loop_encode root (code_of (generate_huffman (create_message msg) root))
      ms [] ?_]
  · simp
  · intro c hc
    rcases pipeline_code_spec hroot (hms c hc) with ⟨p, hl, hcode⟩
    rw [hcode]
    exact ⟨lookupLeaf_ne_nil hnl hl, msg.count c, lookupLeaf_walk hl⟩

/-! ## The single-symbol pipeline -/

theorem filter_eq_singleton {l : List Nat} {c : Nat} (hnd : l.Nodup)
    (hc : c ∈ l) (p : Nat → Bool) (hp : ∀ b, p b = true ↔ b = c) :
    l.filter p = [c] := by
  induction l with
  | nil => cases hc
  | cons b bs ih =>
    rcases List.nodup_cons.mp hnd with ⟨hbn, hbs⟩
    by_cases hbc : b = c
    · subst hbc
      rw [List.filter_cons_of_pos ((hp b).mpr rfl)]
      have : bs.filter p = [] := by
        rw [List.filter_eq_nil_iff]
        intro x hx hpx
        exact hbn (((hp x).mp hpx) ▸ hx)
      rw [this]
    · have hcbs : c ∈ bs := by
        rcases List.mem_cons.mp hc with h | h
        · exact absurd h.symm hbc
        · exact h
      rw [List.filter_cons_of_neg (fun hpb => hbc ((hp b).mp hpb)),
        ih hbs hcbs]

theorem create_message_replicate (c n : Nat) (hc : c < 256) (hn : 0 < n) :
    create_message (List.replicate n c) = [⟨c, n, none⟩] := by
  rw [create_message]
  have hfilter : (List.range 256).filter
      (fun b => 0 < count_frequencies (List.replicate n c) b) = [c] := by
    refine filter_eq_singleton (List.nodup_range 256) (List.mem_range.mpr hc) _ ?_
    intro b
    simp only [count_frequencies, List.count_replicate, decide_eq_true_eq]
    by_cases hbc : c = b
    · subst hbc
      simp [hn]
    · rw [if_neg (by simpa using hbc)]
      constructor
      · intro h
        omega
      · intro h
        exact absurd h.symm hbc
  rw [hfilter, List.map_cons, List.map_nil]
  have : count_frequencies (List.replicate n c) c = n := by
    simp [count_frequencies, List.count_replicate]
  rw [this]

theorem flatten_map_nil {α β : Type} (l : List α) :
    ((l.map (fun _ => ([] : List β))).flatten) = [] := by
  induction l with
  | nil => rfl
  | cons x xs ih => simp [ih]

/-! ## Claim theorems -/

/-- C1 (amended): for every valid message with at least two distinct
symbols, decoding the encoded message with the message's own table and tree
returns the original message.  (The claim as stated, for every non-empty
message, fails on single-distinct-symbol messages, see
`c1_single_symbol_counterexample`.) -/
theorem c1_round_trip_two_distinct (msg : List Nat)
    (hv : validMsg msg) (h2 : 2 ≤ (create_message msg).length) :
    pipeline_decode msg = some msg := by
  have hne : create_message msg ≠ [] := by
    intro h
    rw [h] at h2
    simp at h2
  rcases generate_tree_isSome hne with ⟨root, hroot⟩
  have hnl := generate_tree_not_leaf h2 hroot
  have hmsg : ∀ c ∈ msg, c ∈ root.syms := by
    intro c hc
    exact ((generate_tree_syms hroot).mem_iff).mpr
      (mem_chars_create_message.mpr ⟨hc, (hv c hc).2⟩)
  have h := decode_encode_syms hroot hnl msg hmsg
  simp only [pipeline_decode, pipeline_encode, pipeline_table, pipeline_tree,
    hroot]
  simp only [pipeline_tree, hroot] at h ⊢
  exact h

set_option maxRecDepth 100000 in
/-- C1 witness: the round-trip theorem applied to the concrete two-symbol
message `[97, 98]` (the string `"ab"`). -/
theorem c1_round_trip_witness : pipeline_decode [97, 98] = some [97, 98] :=
  c1_round_trip_two_distinct [97, 98] (by decide) (by decide)

set_option maxRecDepth 100000 in
/-- C1 counterexample: the valid non-empty message `"aa"` does not
round-trip: the decoder returns the empty message, because the single
leaf's code is the empty bit-string. -/
theorem c1_single_symbol_counterexample :
    validMsg [97, 97] ∧ [97, 97] ≠ ([] : List Nat) ∧
      pipeline_decode [97, 97] = some [] ∧
      pipeline_decode [97, 97] ≠ some [97, 97] := by decide

set_option maxRecDepth 1000000 in
/-- C2 (amended): the demo message (59 symbols) encodes exactly to the
150-character reference bit-string hardcoded in `main`, and decoding that
bit-string returns the demo message. -/
theorem c2_concrete_scenario :
    pipeline_encode demo_message = demo_encoded ∧
    pipeline_decode demo_message = some demo_message := by decide

set_option maxRecDepth 1000000 in
/-- C2 counterexample: the claim calls the demo message a 60-symbol message
and the reference bit-string a 156-character string; in fact they have 59
and 150 characters respectively. -/
theorem c2_counts_counterexample :
    demo_message.length = 59 ∧ demo_message.length ≠ 60 ∧
      demo_encoded.length = 150 ∧ demo_encoded.length ≠ 156 := by decide

set_option maxRecDepth 100000 in
/-- C3: for the empty message the frequency table has no entries, and
`generate_tree` computes the `size_t` value `2 * 0 - 1`, which underflows
to `2^64 - 1`; the C code has no EmptyAlphabet check at all (the claimed
error does not exist), and the model has no tree to return. -/
theorem c3_empty_alphabet_underflow :
    create_message [] = [] ∧
      generate_tree_max_nodes (create_message []).length = 2 ^ 64 - 1 ∧
      generate_tree (create_message []) = none := by decide

/-- C4 counterexample: encoding the message `"ab"` with a table that
contains only `'a'` silently skips `'b'` and returns `"0"`; no
UnknownSymbol error exists in the code. -/
theorem c4_unknown_symbol_counterexample :
    huffman_encode [97, 98] [⟨97, 1, some ['0']⟩] = ['0'] ∧
      huffman_encode [97, 98] [⟨97, 1, some ['0']⟩] =
        huffman_encode [97] [⟨97, 1, some ['0']⟩] := by decide

/-- C4 (amended): a symbol with no entry in the code table contributes
nothing to the encoder's output: encoding a message equals encoding the
message with all unknown symbols removed. -/
theorem c4_encode_skips_unknown (message : List Nat)
    (message_info : List MessageChar) :
    huffman_encode message message_info =
      huffman_encode
        (message.filter
          (fun c => (message_info.find? (fun mc => mc.c == c)).isSome))
        message_info := by
  induction message with
  | nil => rfl
  | cons c ms ih =>
    rw [huffman_encode, List.map_cons, List.flatten_cons, List.filter_cons]
    cases hf : message_info.find? (fun mc => mc.c == c) with
    | none =>
      have hcode : code_of message_info c = [] := by
        rw [code_of, hf]
      rw [hcode, List.nil_append]
      simp only [hf, Option.isSome_none, Bool.false_eq_true, if_neg,
        if_false]
      exact ih
    | some e =>
      simp only [hf, Option.isSome_some, if_pos]
      rw [huffman_encode, List.map_cons, List.flatten_cons]
      rw [huffman_encode] at ih
      rw [ih, huffman_encode]

set_option maxRecDepth 100000 in
/-- C9 counterexample: the single-repeated-symbol message `"aaaa"` does not
round-trip: the pipeline encodes it to the empty bit-string and decodes
that to the empty message, not the original. -/
theorem c9_single_symbol_counterexample :
    pipeline_encode [97, 97, 97, 97] = [] ∧
      pipeline_decode [97, 97, 97, 97] = some [] ∧
      pipeline_decode [97, 97, 97, 97] ≠ some [97, 97, 97, 97] := by decide

/-- C9 (amended): for every non-empty message made of one repeated nonzero
byte, the tree is a single leaf whose code is the empty bit-string, so the
pipeline encodes the message to the empty bit-string and decodes it back to
the empty message — the round-trip returns the empty message, not the
original. -/
theorem c9_single_symbol_pipeline (c n : Nat) (hc0 : 0 < c) (hc : c < 256)
    (hn : 0 < n) :
    pipeline_encode (List.replicate n c) = [] ∧
    pipeline_decode (List.replicate n c) = some [] := by
  have htbl := create_message_replicate c n hc hn
  have htree : generate_tree (create_message (List.replicate n c)) =
      some (HNode.leaf c n) := by
    rw [htbl]
    rfl
  have hgen : generate_huffman (create_message (List.replicate n c))
      (HNode.leaf c n) = [⟨c, n, some []⟩] := by
    rw [htbl, generate_huffman, generate_huffman_aux, set_code, if_pos rfl]
  have hcode : code_of [⟨c, n, some []⟩] c = [] := by
    rw [code_of, List.find?_cons]
    simp
  have henc : pipeline_encode (List.replicate n c) = [] := by
    simp only [pipeline_encode, pipeline_table, pipeline_tree, htree]
    rw [hgen, huffman_encode]
    have : (List.replicate n c).map (code_of [⟨c, n, some []⟩])
        = (List.replicate n c).map (fun _ => ([] : List Char)) :=
      List.map_congr_left (fun x hx => by
        rw [List.eq_of_mem_replicate hx, hcode])
    rw [this, flatten_map_nil]
  refine ⟨henc, ?_⟩
  simp only [pipeline_decode, pipeline_tree, htree, henc]
  rw [huffman_decode, decode_loop, if_pos rfl]
  rfl

/-- C9 witness: the single-symbol pipeline theorem applied to the message
`"bb"` (byte 98 twice). -/
theorem c9_single_symbol_witness :
    pipeline_encode (List.replicate 2 98) = [] ∧
    pipeline_decode (List.replicate 2 98) = some [] :=
  c9_single_symbol_pipeline 98 2 (by decide) (by decide) (by decide)

set_option maxRecDepth 100000 in
/-- C10: for the message `"abcde"` the total code length is 12 while the
buffer capacity also ends at 12 (it started at `strlen+1 = 6` and doubled
once), so the terminating `'\0'` is written at index 12 of a 12-byte
buffer — out of bounds, contradicting the claim that the write index stays
strictly below the capacity. -/
theorem c10_terminator_out_of_bounds :
    huffman_encode_state [97, 98, 99, 100, 101]
        (pipeline_table [97, 98, 99, 100, 101]) = (12, 12) ∧
      ¬((huffman_encode_state [97, 98, 99, 100, 101]
          (pipeline_table [97, 98, 99, 100, 101])).1 <
        (huffman_encode_state [97, 98, 99, 100, 101]
          (pipeline_table [97, 98, 99, 100, 101])).2) := by decide

theorem decode_loop_none_iff (root : HNode) :
    ∀ (bits : List Char) (cur : HNode) (acc : List Nat),
      (decode_loop root bits cur acc = none ↔
        decode_cursor root bits cur ≠ some root) := by
  intro bits
  induction bits with
  | nil =>
    intro cur acc
    rw [decode_loop, decode_cursor]
    by_cases hc : cur = root
    · rw [if_pos hc]
      simp [hc]
    · rw [if_neg hc]
      simp [hc]
  | cons b bs ih =>
    intro cur acc
    cases cur with
    | leaf c f => simp [decode_loop, decode_cursor]
    | internal l r fr =>
      simp only [decode_loop, decode_cursor]
      by_cases hleaf : (if b = '0' then l else r).isLeaf = true
      · rw [if_pos hleaf, if_pos hleaf]
        exact ih root _
      · rw [if_neg hleaf, if_neg hleaf]
        exact ih _ acc

/-- C5: for any split of the encoded message into a prefix `p` and a
suffix, decoding `p` with the tree fails (returns `NULL`, discarding all
partially decoded output) exactly when the traversal cursor does not end
back at the root, which happens exactly when `p` is not a concatenation of
complete codewords of table symbols.  In particular every strict non-empty
prefix that ends inside a codeword fails, and is never decoded to a wrong
message. -/
theorem c5_truncation_detection (msg : List Nat) (root : HNode)
    (hv : validMsg msg) (h2 : 2 ≤ (create_message msg).length)
    (hroot : pipeline_tree msg = some root) :
    ∀ p q, pipeline_encode msg = p ++ q →
      (huffman_decode p root = none ↔ decode_cursor root p root ≠ some root) ∧
      (huffman_decode p root = none ↔
        ¬ ∃ ms, (∀ c ∈ ms, c ∈ root.syms) ∧
          p = huffman_encode ms (pipeline_table msg)) := by
  intro p q hsplit
  refine ⟨decode_loop_none_iff root p root [], ?_⟩
  have hroot' : generate_tree (create_message msg) = some root := hroot
  have htbl : pipeline_table msg
      = generate_huffman (create_message msg) root := by
    simp only [pipeline_table, pipeline_tree, hroot']
  have hnl : root.isLeaf = false := generate_tree_not_leaf h2 hroot'
  have hnd := generate_tree_syms_nodup (create_message_chars_nodup msg) hroot'
  have hbinp : ∀ ch ∈ p, ch = '0' ∨ ch = '1' := by
    intro ch hch
    have hmem : ch ∈ pipeline_encode msg := by
      rw [hsplit]
      exact List.mem_append_left _ hch
    rw [pipeline_encode, htbl] at hmem
    exact huffman_encode_binary hroot' ch hmem
  constructor
  · rintro hnone ⟨ms, hms, hp⟩
    have hdec := decode_encode_syms hroot' hnl ms hms
    rw [htbl] at hp
    rw [← hp] at hdec
    rw [hdec] at hnone
    cases hnone
  · intro hnex
    cases hdec : huffman_decode p root with
    | none => rfl
    | some out =>
      exfalso
      apply hnex
      rw [huffman_decode] at hdec
      rcases decode_loop_sound root hnd p.length p [] out (Nat.le_refl _)
          hbinp hdec with ⟨ms, hres, hmem, hbits⟩
      refine ⟨ms, hmem, ?_⟩
      rw [htbl, huffman_encode, hbits]
      congr 1
      refine List.map_congr_left (fun c hc => ?_)
      rcases pipeline_code_spec hroot' (hmem c hc) with ⟨pc, hl, hcode⟩
      rw [hl, hcode]

set_option maxRecDepth 100000 in
/-- C5 witness: for the message `"ab"`, the one-bit strict prefix `"0"` of
the encoded message `"01"` is itself a complete codeword (of `'a'`), so it
is decodable; the iff is applied at that concrete split. -/
theorem c5_truncation_witness :
    (huffman_decode ['0'] (HNode.internal (.leaf 97 1) (.leaf 98 1) 2) = none ↔
      decode_cursor (HNode.internal (.leaf 97 1) (.leaf 98 1) 2) ['0']
          (HNode.internal (.leaf 97 1) (.leaf 98 1) 2)
        ≠ some (HNode.internal (.leaf 97 1) (.leaf 98 1) 2)) ∧
    (huffman_decode ['0'] (HNode.internal (.leaf 97 1) (.leaf 98 1) 2) = none ↔
      ¬ ∃ ms, (∀ c ∈ ms, c ∈ (HNode.internal (.leaf 97 1) (.leaf 98 1) 2).syms) ∧
        ['0'] = huffman_encode ms (pipeline_table [97, 98])) :=
  c5_truncation_detection [97, 98] (HNode.internal (.leaf 97 1) (.leaf 98 1) 2)
    (by decide) (by decide) (by decide) ['0'] ['1'] (by decide)

/-- C6: in the code table generated from a message's own Huffman tree, the
codes of two entries with different characters are never in the
extension relation: no code equals the other followed by more bits. -/
theorem c6_code_table_antichain (msg : List Nat) (root : HNode)
    (hroot : pipeline_tree msg = some root) :
    ∀ e1 ∈ pipeline_table msg, ∀ e2 ∈ pipeline_table msg, e1.c ≠ e2.c →
      ∀ p1 p2, e1.code = some p1 → e2.code = some p2 →
        ∀ ext, p2 ≠ p1 ++ ext := by
  intro e1 he1 e2 he2 hne p1 p2 hc1 hc2 ext heq
  have hroot' : generate_tree (create_message msg) = some root := hroot
  have htbl : pipeline_table msg
      = generate_huffman (create_message msg) root := by
    simp only [pipeline_table, pipeline_tree, hroot']
  rw [htbl] at he1 he2
  rcases pipeline_table_mem hroot' he1 with ⟨_, hcode1, _⟩
  rcases pipeline_table_mem hroot' he2 with ⟨_, hcode2, _⟩
  rw [hc1] at hcode1
  rw [hc2] at hcode2
  have hl1 : ∃ f1, root.lookupLeaf e1.c = some (p1, f1) := by
    cases hl : root.lookupLeaf e1.c with
    | none =>
      rw [hl] at hcode1
      cases hcode1
    | some pf =>
      obtain ⟨q1, f1⟩ := pf
      rw [hl] at hcode1
      exact ⟨f1, by rw [Option.some.inj hcode1]⟩
  have hl2 : ∃ f2, root.lookupLeaf e2.c = some (p2, f2) := by
    cases hl : root.lookupLeaf e2.c with
    | none =>
      rw [hl] at hcode2
      cases hcode2
    | some pf =>
      obtain ⟨q2, f2⟩ := pf
      rw [hl] at hcode2
      exact ⟨f2, by rw [Option.some.inj hcode2]⟩
  rcases hl1 with ⟨f1, hl1⟩
  rcases hl2 with ⟨f2, hl2⟩
  have hw1 := lookupLeaf_walk hl1
  have hw2 := lookupLeaf_walk hl2
  rw [heq, walk_append, hw1] at hw2
  have hw2' : (HNode.leaf e1.c f1).walk ext = some (.leaf e2.c f2) := hw2
  cases ext with
  | nil =>
    rw [walk_nil] at hw2'
    have h3 := Option.some.inj hw2'
    rw [HNode.leaf.injEq] at h3
    exact hne h3.1
  | cons b bs =>
    rw [walk_leaf_cons] at hw2'
    cases hw2'

set_option maxRecDepth 100000 in
/-- C6 witness: for the message `"ab"` the codes of `'a'` and `'b'` are
`"0"` and `"1"`; the antichain theorem applied at that table shows `"1"`
is not `"0"` followed by `"1"`. -/
theorem c6_code_table_antichain_witness :
    (['1'] : List Char) ≠ ['0'] ++ ['1'] :=
  c6_code_table_antichain [97, 98]
    (HNode.internal (.leaf 97 1) (.leaf 98 1) 2) (by decide)
    ⟨97, 1, some ['0']⟩ (by decide) ⟨98, 1, some ['1']⟩ (by decide)
    (by decide) ['0'] ['1'] (by decide) (by decide) ['1']

/-- C8: in every tree returned by the builder, each internal node stores
the sum of its children's frequencies, and the root's frequency equals the
length of the message the table was counted from. -/
theorem c8_tree_weight_invariant (msg : List Nat) (root : HNode)
    (hv : validMsg msg) (hroot : pipeline_tree msg = some root) :
    freqConsistent root ∧ root.freq = msg.length := by
  have hroot' : generate_tree (create_message msg) = some root := hroot
  refine ⟨generate_tree_freqConsistent hroot', ?_⟩
  rw [generate_tree_freq hroot']
  exact create_message_freq_sum msg (fun c hc => (hv c hc).2)

set_option maxRecDepth 100000 in
/-- C8 witness: the weight invariant applied to the concrete message
`"ab"` and its two-leaf tree of total weight 2. -/
theorem c8_tree_weight_witness :
    freqConsistent (HNode.internal (.leaf 97 1) (.leaf 98 1) 2) ∧
      (HNode.internal (.leaf 97 1) (.leaf 98 1) 2).freq
        = ([97, 98] : List Nat).length :=
  c8_tree_weight_invariant [97, 98] _ (by decide) (by decide)

/-! ## The code-length ordering invariant -/

theorem lookupLeaf_internal_inv {t1 t2 : HNode} {fr a : Nat}
    {pa : List Char} {fa : Nat}
    (h : (HNode.internal t1 t2 fr).lookupLeaf a = some (pa, fa)) :
    (∃ q, t1.lookupLeaf a = some (q, fa) ∧ pa = '0' :: q) ∨
    (∃ q, t2.lookupLeaf a = some (q, fa) ∧ pa = '1' :: q) := by
  rw [HNode.lookupLeaf] at h
  cases hl : t1.lookupLeaf a with
  | some pf =>
    obtain ⟨q, f⟩ := pf
    rw [hl] at h
    cases h
    exact Or.inl ⟨q, rfl, rfl⟩
  | none =>
    rw [hl] at h
    cases hr : t2.lookupLeaf a with
    | some pf =>
      obtain ⟨q, f⟩ := pf
      rw [hr] at h
      cases h
      exact Or.inr ⟨q, rfl, rfl⟩
    | none =>
      rw [hr] at h
      cases h

theorem forest_mem_syms {F : List HNode} {T : HNode} (hT : T ∈ F) {b : Nat}
    (hb : b ∈ T.syms) : b ∈ forestSyms F :=
  List.mem_flatten.mpr ⟨T.syms, List.mem_map_of_mem _ hT, hb⟩

theorem forestSyms_cons (t : HNode) (F : List HNode) :
    forestSyms (t :: F) = t.syms ++ forestSyms F := by
  simp [forestSyms]

theorem rest_disjoint {t1 t2 : HNode} {rest : List HNode}
    (hnd : (forestSyms (t1 :: t2 :: rest)).Nodup) {T : HNode} (hT : T ∈ rest)
    {b : Nat} (hb : b ∈ T.syms) : b ∉ t1.syms ∧ b ∉ t2.syms := by
  rw [forestSyms_cons] at hnd
  have hbrest : b ∈ forestSyms rest := forest_mem_syms hT hb
  refine ⟨?_, ?_⟩
  · intro hb1
    refine (List.disjoint_of_nodup_append hnd) hb1 ?_
    rw [forestSyms_cons]
    exact List.mem_append_right _ hbrest
  · intro hb2
    have hnd2 := hnd.of_append_right
    rw [forestSyms_cons] at hnd2
    exact (List.disjoint_of_nodup_append hnd2) hb2 hbrest

theorem forestSyms_parent (t1 t2 : HNode) (fr : Nat) (rest : List HNode) :
    forestSyms (HNode.internal t1 t2 fr :: rest)
      = t1.syms ++ (t2.syms ++ forestSyms rest) := by
  rw [forestSyms_cons, syms_internal, List.append_assoc]

theorem forestInv_perm {F F' : List HNode} (h : F.Perm F')
    (hinv : forestInv F) : forestInv F' := by
  intro Ta hTa Tb hTb a b pa fa pb fb hla hlb hfb
  rcases hinv Ta (h.mem_iff.mpr hTa) Tb (h.mem_iff.mpr hTb) a b pa fa pb fb
    hla hlb hfb with ⟨h1, h2⟩
  refine ⟨h1, fun hnb => ?_⟩
  rw [← minFreq_perm h]
  exact h2 hnb

theorem forestInv_leaves (tbl : List MessageChar) :
    forestInv (tbl.map (fun mc => HNode.leaf mc.c mc.freq)) := by
  intro Ta hTa Tb hTb a b pa fa pb fb hla hlb hfb
  rcases List.mem_map.mp hTa with ⟨ea, _, rfl⟩
  rcases List.mem_map.mp hTb with ⟨eb, _, rfl⟩
  rw [HNode.lookupLeaf] at hla hlb
  by_cases ha : ea.c = a
  · rw [if_pos ha] at hla
    cases hla
    by_cases hb : eb.c = b
    · rw [if_pos hb] at hlb
      cases hlb
      refine ⟨Nat.le_refl _, fun _ => ?_⟩
      show eb.freq < ea.freq + (0 - 0) * _
      simpa using hfb
    · rw [if_neg hb] at hlb
      cases hlb
  · rw [if_neg ha] at hla
    cases hla

theorem forestInv_step {t1 t2 : HNode} {rest : List HNode}
    (hsort : (t1 :: t2 :: rest).Pairwise (fun s t => s.freq ≤ t.freq))
    (hnd : (forestSyms (t1 :: t2 :: rest)).Nodup)
    (hinv : forestInv (t1 :: t2 :: rest)) :
    forestInv (create_parent_node t1 t2 :: rest) := by
  have hf12 : t1.freq ≤ t2.freq :=
    (List.pairwise_cons.mp hsort).1 t2 (List.mem_cons_self _ _)
  have hrest2 : ∀ T ∈ rest, t2.freq ≤ T.freq := fun T hT =>
    (List.pairwise_cons.mp (List.pairwise_cons.mp hsort).2).1 T hT
  have ht1mem : t1 ∈ t1 :: t2 :: rest := List.mem_cons_self _ _
  have ht2mem : t2 ∈ t1 :: t2 :: rest :=
    List.mem_cons_of_mem _ (List.mem_cons_self _ _)
  have hmF1 : minFreq (t1 :: t2 :: rest) ≤ t1.freq := minFreq_le_mem ht1mem
  have hmF2 : minFreq (t1 :: t2 :: rest) ≤ t2.freq := minFreq_le_mem ht2mem
  have hmF' : t2.freq ≤ minFreq (create_parent_node t1 t2 :: rest) := by
    refine le_minFreq (List.cons_ne_nil _ _) ?_
    intro T hT
    rcases List.mem_cons.mp hT with rfl | hT'
    · rw [create_parent_freq]
      omega
    · exact hrest2 T hT'
  have hmm : minFreq (t1 :: t2 :: rest)
      ≤ minFreq (create_parent_node t1 t2 :: rest) := Nat.le_trans hmF2 hmF'
  intro Ta hTa Tb hTb a b pa fa pb fb hla hlb hfb
  rcases List.mem_cons.mp hTa with hTaP | hTa'
  · -- the tree holding `a` is the new parent
    subst hTaP
    rw [create_parent_node] at hla
    have main : ∀ (Tx : HNode) (qa : List Char), (Tx = t1 ∨ Tx = t2) →
        Tx.freq ≤ t2.freq →
        Tx.freq + minFreq (t1 :: t2 :: rest) ≤ t1.freq + t2.freq →
        Tx.lookupLeaf a = some (qa, fa) → pa.length = qa.length + 1 →
        pa.length ≤ pb.length ∧
          (b ∉ (create_parent_node t1 t2).syms →
            Tb.freq < (create_parent_node t1 t2).freq +
              (pb.length - pa.length) *
                minFreq (create_parent_node t1 t2 :: rest)) := by
      intro Tx qa hTx12 hTx2 hTxsum hlax hlen
      have hTxmem : Tx ∈ t1 :: t2 :: rest := by
        rcases hTx12 with rfl | rfl
        · exact ht1mem
        · exact ht2mem
      rcases List.mem_cons.mp hTb with hTbP | hTb'
      · -- both leaves are inside the new parent
        subst hTbP
        rw [create_parent_node] at hlb
        have hbP : b ∈ (create_parent_node t1 t2).syms := by
          rw [create_parent_node, syms_internal]
          rcases lookupLeaf_internal_inv hlb with ⟨qb, hlby, _⟩ | ⟨qb, hlby, _⟩
          · exact List.mem_append_left _ (lookupLeaf_mem_syms hlby)
          · exact List.mem_append_right _ (lookupLeaf_mem_syms hlby)
        rcases lookupLeaf_internal_inv hlb with ⟨qb, hlby, hpb⟩ | ⟨qb, hlby, hpb⟩
        · have h1 := (hinv Tx hTxmem t1 ht1mem a b qa fa qb fb hlax hlby hfb).1
          refine ⟨?_, fun hban => absurd hbP hban⟩
          rw [hlen, hpb]
          simpa using h1
        · have h1 := (hinv Tx hTxmem t2 ht2mem a b qa fa qb fb hlax hlby hfb).1
          refine ⟨?_, fun hban => absurd hbP hban⟩
          rw [hlen, hpb]
          simpa using h1
      · -- `b` lives in an untouched tree of the rest
        have hbmem : b ∈ Tb.syms := lookupLeaf_mem_syms hlb
        have hbx := rest_disjoint hnd hTb' hbmem
        have hbTx : b ∉ Tx.syms := by
          rcases hTx12 with rfl | rfl
          · exact hbx.1
          · exact hbx.2
        have hold := hinv Tx hTxmem Tb
          (List.mem_cons_of_mem _ (List.mem_cons_of_mem _ hTb')) a b qa fa pb fb
          hlax hlb hfb
        have hq : qa.length < pb.length := by
          rcases Nat.lt_or_ge qa.length pb.length with h | h
          · exact h
          · exfalso
            have hgap0 := hold.2 hbTx
            have heq0 : pb.length - qa.length = 0 := by omega
            rw [heq0, Nat.zero_mul] at hgap0
            have hTbf := hrest2 Tb hTb'
            omega
        constructor
        · omega
        · intro _
          have hgap := hold.2 hbTx
          have heq : pb.length - qa.length = (pb.length - pa.length) + 1 := by
            omega
          rw [heq, Nat.succ_mul] at hgap
          have hmul : (pb.length - pa.length) * minFreq (t1 :: t2 :: rest)
              ≤ (pb.length - pa.length) *
                minFreq (create_parent_node t1 t2 :: rest) :=
            Nat.mul_le_mul_left _ hmm
          rw [create_parent_freq]
          omega
    rcases lookupLeaf_internal_inv hla with ⟨qa, hlax, hpa⟩ | ⟨qa, hlax, hpa⟩
    · exact main t1 qa (Or.inl rfl) hf12 (by omega) hlax (by rw [hpa]; rfl)
    · exact main t2 qa (Or.inr rfl) (Nat.le_refl _) (by omega) hlax
        (by rw [hpa]; rfl)
  · -- the tree holding `a` is untouched
    rcases List.mem_cons.mp hTb with hTbP | hTb'
    · -- `b` lives inside the new parent
      subst hTbP
      rw [create_parent_node] at hlb
      have partC : ∀ (Ty : HNode) (qb : List Char), Ty ∈ t1 :: t2 :: rest →
          t1.freq + t2.freq ≤ Ty.freq + t2.freq →
          Ty.lookupLeaf b = some (qb, fb) → pb.length = qb.length + 1 →
          pa.length ≤ pb.length ∧
            (b ∉ Ta.syms →
              (create_parent_node t1 t2).freq < Ta.freq +
                (pb.length - pa.length) *
                  minFreq (create_parent_node t1 t2 :: rest)) := by
        intro Ty qb hTymem hTy1 hlby hplen
        have hold := hinv Ta
          (List.mem_cons_of_mem _ (List.mem_cons_of_mem _ hTa')) Ty hTymem
          a b pa fa qb fb hla hlby hfb
        have hle : pa.length ≤ qb.length := hold.1
        refine ⟨by omega, ?_⟩
        intro hban
        have hgap := hold.2 hban
        have heq : pb.length - pa.length = (qb.length - pa.length) + 1 := by
          omega
        rw [create_parent_freq, heq, Nat.succ_mul]
        have hmul : (qb.length - pa.length) * minFreq (t1 :: t2 :: rest)
            ≤ (qb.length - pa.length) *
              minFreq (create_parent_node t1 t2 :: rest) :=
          Nat.mul_le_mul_left _ hmm
        omega
      rcases lookupLeaf_internal_inv hlb with ⟨qb, hlby, hpb⟩ | ⟨qb, hlby, hpb⟩
      · exact partC t1 qb ht1mem (by omega) hlby (by rw [hpb]; rfl)
      · exact partC t2 qb ht2mem (by omega) hlby (by rw [hpb]; rfl)
    · -- both trees untouched
      have hold := hinv Ta
        (List.mem_cons_of_mem _ (List.mem_cons_of_mem _ hTa')) Tb
        (List.mem_cons_of_mem _ (List.mem_cons_of_mem _ hTb')) a b pa fa pb fb
        hla hlb hfb
      refine ⟨hold.1, ?_⟩
      intro hban
      have hgap := hold.2 hban
      have hmul : (pb.length - pa.length) * minFreq (t1 :: t2 :: rest)
          ≤ (pb.length - pa.length) *
            minFreq (create_parent_node t1 t2 :: rest) :=
        Nat.mul_le_mul_left _ hmm
      omega

theorem forestSyms_perm {F F' : List HNode} (h : F.Perm F') :
    (forestSyms F).Perm (forestSyms F') := (h.map _).flatten

theorem forestSyms_leaves (tbl : List MessageChar) :
    forestSyms (tbl.map (fun mc => HNode.leaf mc.c mc.freq)) =
      tbl.map (fun e => e.c) := by
  induction tbl with
  | nil => rfl
  | cons e es ih =>
    rw [List.map_cons, forestSyms_cons, ih, syms_leaf, List.singleton_append,
      List.map_cons]

theorem huffman_loop_inv (fuel : Nat) :
    ∀ (F : List HNode) (root : HNode),
      F.Pairwise (fun s t => s.freq ≤ t.freq) →
      (forestSyms F).Nodup → forestInv F → huffman_loop fuel F = some root →
      ∀ a b pa fa pb fb, root.lookupLeaf a = some (pa, fa) →
        root.lookupLeaf b = some (pb, fb) → fb < fa →
        pa.length ≤ pb.length := by
  induction fuel with
  | zero =>
    intro F root hsort hnd hinv h
    match F, hinv, h with
    | [], _, h => cases h
    | [t], hinv, h =>
      intro a b pa fa pb fb hla hlb hfb
      have ht : t = root := Option.some.inj h
      have hm : root ∈ [t] := by
        rw [ht]
        exact List.mem_singleton_self _
      exact (hinv root hm root hm a b pa fa pb fb hla hlb hfb).1
    | t1 :: t2 :: rest, _, h => cases h
  | succ fuel ih =>
    intro F root hsort hnd hinv h
    match F, hsort, hnd, hinv, h with
    | [], _, _, _, h => cases h
    | [t], _, _, hinv, h =>
      intro a b pa fa pb fb hla hlb hfb
      have ht : t = root := Option.some.inj h
      have hm : root ∈ [t] := by
        rw [ht]
        exact List.mem_singleton_self _
      exact (hinv root hm root hm a b pa fa pb fb hla hlb hfb).1
    | t1 :: t2 :: rest, hsort, hnd, hinv, h =>
      have hinv' := forestInv_step hsort hnd hinv
      have hnd' : (forestSyms (create_parent_node t1 t2 :: rest)).Nodup := by
        rw [create_parent_node, forestSyms_parent]
        rw [forestSyms_cons, forestSyms_cons] at hnd
        exact hnd
      exact ih (sort_nodes (create_parent_node t1 t2 :: rest)) root
        (sort_nodes_sorted _)
        (((forestSyms_perm (sort_nodes_perm _)).nodup_iff).mpr hnd')
        (forestInv_perm (sort_nodes_perm _).symm hinv') h

theorem generate_tree_depth_mono {tbl : List MessageChar} {root : HNode}
    (hnd : (tbl.map (fun e => e.c)).Nodup)
    (hroot : generate_tree tbl = some root) :
    ∀ a b pa fa pb fb, root.lookupLeaf a = some (pa, fa) →
      root.lookupLeaf b = some (pb, fb) → fb < fa → pa.length ≤ pb.length := by
  rw [generate_tree] at hroot
  refine huffman_loop_inv _ _ root (sort_nodes_sorted _) ?_ ?_ hroot
  · refine ((forestSyms_perm (sort_nodes_perm _)).nodup_iff).mpr ?_
    rw [forestSyms_leaves]
    exact hnd
  · exact forestInv_perm (sort_nodes_perm _).symm (forestInv_leaves tbl)

/-- C7: in a code table built by the pipeline from a message's own
frequencies, a symbol of strictly higher frequency never receives a longer
code than a symbol of strictly lower frequency. -/
theorem c7_code_length_ordering (msg : List Nat) (root : HNode)
    (hroot : pipeline_tree msg = some root) :
    ∀ e1 ∈ pipeline_table msg, ∀ e2 ∈ pipeline_table msg,
      e2.freq < e1.freq → ∀ p1 p2, e1.code = some p1 → e2.code = some p2 →
        p1.length ≤ p2.length := by
  intro e1 he1 e2 he2 hlt p1 p2 hc1 hc2
  have hroot' : generate_tree (create_message msg) = some root := hroot
  have htbl : pipeline_table msg
      = generate_huffman (create_message msg) root := by
    simp only [pipeline_table, pipeline_tree, hroot']
  rw [htbl] at he1 he2
  rcases pipeline_table_mem hroot' he1 with ⟨hf1, hcode1, hcnt1⟩
  rcases pipeline_table_mem hroot' he2 with ⟨hf2, hcode2, hcnt2⟩
  rw [hc1] at hcode1
  rw [hc2] at hcode2
  obtain ⟨f1, hl1⟩ : ∃ f1, root.lookupLeaf e1.c = some (p1, f1) := by
    cases hl : root.lookupLeaf e1.c with
    | none =>
      rw [hl] at hcode1
      cases hcode1
    | some pf =>
      obtain ⟨q1, g1⟩ := pf
      rw [hl] at hcode1
      exact ⟨g1, by rw [Option.some.inj hcode1]⟩
  obtain ⟨f2, hl2⟩ : ∃ f2, root.lookupLeaf e2.c = some (p2, f2) := by
    cases hl : root.lookupLeaf e2.c with
    | none =>
      rw [hl] at hcode2
      cases hcode2
    | some pf =>
      obtain ⟨q2, g2⟩ := pf
      rw [hl] at hcode2
      exact ⟨g2, by rw [Option.some.inj hcode2]⟩
  have hg1 : f1 = msg.count e1.c := hcnt1 p1 f1 hl1
  have hg2 : f2 = msg.count e2.c := hcnt2 p2 f2 hl2
  refine generate_tree_depth_mono (create_message_chars_nodup msg) hroot'
    e1.c e2.c p1 f1 p2 f2 hl1 hl2 ?_
  rw [hg1, hg2, ← hf1, ← hf2]
  exact hlt

set_option maxRecDepth 100000 in
/-- C7 witness: for the message `"aab"`, the symbol `'a'` (frequency 2,
code `"1"`) gets a code no longer than `'b'` (frequency 1, code `"0"`). -/
theorem c7_code_length_witness :
    (['1'] : List Char).length ≤ (['0'] : List Char).length :=
  c7_code_length_ordering [97, 97, 98]
    (HNode.internal (.leaf 98 1) (.leaf 97 2) 3) (by decide)
    ⟨97, 2, some ['1']⟩ (by decide) ⟨98, 1, some ['0']⟩ (by decide)
    (by decide) ['1'] ['0'] (by decide) (by decide)

end HuffmanC
